import Mathlib

/-!
Shallow embedding of `src/mono/mini/liveness.c` (liveness analysis of the
mono JIT) and proofs about it.

Conventions used throughout this development:

* Machine integers (`guint32`, `int`, ...) are modelled as `Nat` / `Int`.
  The code's absolute positions `(dfn << 16) | pos` are `Nat`s; the spec
  (§3) states the analysis assumes fewer than 2^16 blocks and 2^16 slots
  per block, so no 32-bit wrap occurs and plain `Nat` arithmetic is exact.
* `MonoBitSet`s over the `max_vars` tracked variables are modelled as
  `Finset (Fin nv)`: `mono_bitset_set_fast` is `insert`,
  `mono_bitset_test_fast` is membership, `mono_bitset_union_fast` is `∪`,
  `mono_bitset_sub_fast` is `\`, `mono_bitset_copyto_fast` + equality
  compare are assignment / `=`.
* Basic blocks are identified with their index in the `cfg->bblocks`
  array, i.e. with `Fin n`; `cfg->bblocks` is indexed by depth-first
  number, so `bb->dfn` is the index itself.
* External collaborators that the spec (§6) treats as interfaces - the
  opcode descriptor table `INS_INFO`, `get_vreg_to_inst`,
  `MONO_IS_STORE_MEMBASE`, `mono_burg_arity` and the aliasing oracle
  `mono_aliasing_get_affected_variables_for_inst_traversing_code` - are
  fields of the embedded CFG records, quantified over in the theorems.
* Opcode numbers (`OP_NOP`, `OP_ARG`, ...) come from an external header;
  only their distinctness matters here, so they are fixed small `Nat`s.
-/

namespace Liveness

/-- `SIZEOF_VOID_P == 8` branch of liveness.c lines 18-22. -/
def BITS_PER_CHUNK : Nat := 64

/-! Opcode constants.  The numeric values are stand-ins for the opcode
enumeration in the external headers; the code only compares them for
equality, so any distinct values are faithful. -/

def OP_NOP : Nat := 1
def OP_LDADDR : Nat := 2
def OP_ICONST : Nat := 3
def OP_I8CONST : Nat := 4
def OP_R8CONST : Nat := 5
def OP_ARG : Nat := 6
def OP_DUMMY_STORE : Nat := 7
def CEE_JMP : Nat := 8

/-! `MonoSsaOp` bit values from the external `mini.h`:
`MONO_SSA_NONE = 0`, `MONO_SSA_ADDRESS_TAKEN = 1`, `MONO_SSA_LOAD = 2`,
`MONO_SSA_STORE = 4`, `MONO_SSA_LOAD_STORE = LOAD|STORE`. -/

def MONO_SSA_ADDRESS_TAKEN : Nat := 1
def MONO_SSA_LOAD : Nat := 2
def MONO_SSA_STORE : Nat := 4
def MONO_SSA_LOAD_STORE : Nat := MONO_SSA_LOAD ||| MONO_SSA_STORE

/-!
## Per-chunk live-range widening loop bounds (liveness.c lines 596-609)

After the fixpoint, `mono_analyze_liveness` walks each block's
`live_in`/`live_out` sets one `BITS_PER_CHUNK`-bit word at a time:

    rem = max_vars % BITS_PER_CHUNK;
    max = ((max_vars + (BITS_PER_CHUNK -1)) / BITS_PER_CHUNK);
    for (j = 0; j < max; ++j) {
        ...
        if (j == max)
            end = (j * BITS_PER_CHUNK) + rem;
        else
            end = (j * BITS_PER_CHUNK) + BITS_PER_CHUNK;

`chunkEndsComputed` records, for every iteration the loop actually
performs, the value assigned to the local `end`.
-/

/-- `rem = max_vars % BITS_PER_CHUNK` (line 596). -/
def chunkRem (max_vars : Nat) : Nat := max_vars % BITS_PER_CHUNK

/-- `max = ((max_vars + (BITS_PER_CHUNK -1)) / BITS_PER_CHUNK)` (line 597). -/
def chunkMax (max_vars : Nat) : Nat := (max_vars + (BITS_PER_CHUNK - 1)) / BITS_PER_CHUNK

/-- Value assigned to the local `end` in iteration `j` (lines 606-609). -/
def chunkEndAssign (max_vars j : Nat) : Nat :=
  if j = chunkMax max_vars then j * BITS_PER_CHUNK + chunkRem max_vars
  else j * BITS_PER_CHUNK + BITS_PER_CHUNK

/-- The sequence of `end` values over the iterations `j = 0, ..., max-1`
actually performed by the `for (j = 0; j < max; ++j)` loop. -/
def chunkEndsComputed (max_vars : Nat) : List Nat :=
  (List.range (chunkMax max_vars)).map (chunkEndAssign max_vars)

/-!
## Entry contract of `mono_analyze_liveness` (liveness.c lines 410-415)

    g_assert (!(cfg->comp_done & MONO_COMP_LIVENESS));
    cfg->comp_done |= MONO_COMP_LIVENESS;
    if (max_vars == 0)
        return;

`cfg->comp_done` is a bitmask of completed passes; it is modelled as a
`Finset` of pass tags (bit test = membership, bit or = `insert`).  A
failing `g_assert` aborts the analysis, modelled as `none`.  The `Bool`
in the result tells whether the analysis proceeds past the early
`max_vars == 0` return.
-/

/-- Tags for the bits of `cfg->comp_done` (external header enum). -/
inductive CompDoneFlag : Type
  | liveness
  | dom
  | ssa
  deriving DecidableEq

/-- Lines 410-415 of `mono_analyze_liveness`: assert the liveness bit of
`comp_done` is clear, set it, and return early when `max_vars == 0`.
`none` models the `g_assert` failure (abort). -/
def livenessEntry (comp_done : Finset CompDoneFlag) (max_vars : Nat) :
    Option (Finset CompDoneFlag × Bool) :=
  if CompDoneFlag.liveness ∈ comp_done then none
  else
    let comp_done' := insert CompDoneFlag.liveness comp_done
    if max_vars = 0 then some (comp_done', false)
    else some (comp_done', true)

/-!
## Variables, live ranges, and the per-block scan state

`MonoMethodVar` fields mutated by this analysis (`range`, `spill_costs`)
plus the `MONO_INST_VOLATILE` bit of `cfg->varinfo[i]->flags` are grouped
with the current block's `gen`/`kill` bit sets into one state record
threaded through the scan.
-/

/-- `MonoLiveRange`: each bound is the `abs_pos` of a `MonoPosition`. -/
structure MonoLiveRange where
  first_use : Nat
  last_use : Nat
  deriving DecidableEq

/-- `update_live_range2` (liveness.c lines 76-84): widen a variable's
range to include `abs_pos`. -/
def update_live_range2 (r : MonoLiveRange) (abs_pos : Nat) : MonoLiveRange :=
  { first_use := if r.first_use > abs_pos then abs_pos else r.first_use
    last_use := if r.last_use < abs_pos then abs_pos else r.last_use }

/-- State mutated by the gen/kill scan of one block: the block's `gen` and
`kill` bit sets plus, per variable, its live range, spill cost and the
`MONO_INST_VOLATILE` flag bit. -/
structure VarSt (nv : Nat) where
  gen : Finset (Fin nv)
  kill : Finset (Fin nv)
  range : Fin nv → MonoLiveRange
  spill_costs : Fin nv → Int
  vol : Fin nv → Bool

/-- Lift `update_live_range2` to the scan state (the C code mutates
`vars [idx]` in place). -/
def updRange2 (st : VarSt nv) (idx : Fin nv) (abs_pos : Nat) : VarSt nv :=
  { st with range := Function.update st.range idx (update_live_range2 (st.range idx) abs_pos) }

/-- `SPILL_COST_INCREMENT` = `1 << (bb->nesting << 1)` (liveness.c line 14). -/
def SPILL_COST_INCREMENT (nesting : Nat) : Int := ((1 <<< (nesting <<< 1) : Nat) : Int)

/-- Add `SPILL_COST_INCREMENT` to `vi->spill_costs`. -/
def addSpillCost (st : VarSt nv) (idx : Fin nv) (nesting : Nat) : VarSt nv :=
  { st with spill_costs :=
      Function.update st.spill_costs idx (st.spill_costs idx + SPILL_COST_INCREMENT nesting) }

/-!
## New-IR per-block scan: `analyze_liveness_bb` (liveness.c lines 299-386)
-/

/-- Result of the external opcode descriptor lookup `INS_INFO`: whether
the `MONO_INST_DEST` / `MONO_INST_SRC1` / `MONO_INST_SRC2` slots are
register slots (the C code compares the descriptor characters to `' '`). -/
structure OpSpec where
  dest : Bool
  src1 : Bool
  src2 : Bool
  deriving DecidableEq

/-- A lowered (new-IR) `MonoInst`: flat instruction with up to two source
vregs and one destination vreg (`-1` = absent, as in the C code), plus -
for `OP_LDADDR` - the tracked-variable index `inst_p0->inst_c0` of its
variable operand (`none` models an ill-formed missing operand, which the
C code would dereference). -/
structure NewInst (nv : Nat) where
  opcode : Nat
  dreg : Int
  sreg1 : Int
  sreg2 : Int
  p0var : Option (Fin nv)
  deriving DecidableEq

/-- External collaborators consumed by the new-IR paths: the opcode
descriptor table, the `MONO_IS_STORE_MEMBASE` opcode predicate, and
`get_vreg_to_inst` (returning the tracked variable's index `inst_c0`,
`none` when the vreg maps to no tracked variable). -/
structure NCfg (nv : Nat) where
  ins_info : Nat → OpSpec
  is_store_membase : Nat → Bool
  vreg_to_inst : Int → Option (Fin nv)

/-- Use of tracked variable `idx` during the new-IR scan.  The same three
statements appear verbatim at the four use sites of `analyze_liveness_bb`
(`OP_LDADDR` line 325-328, SREG1 line 343-346, SREG2 line 359-362,
store-membase DREG line 372-375): `update_live_range2`, then set the
`gen` bit unless the `kill` bit is already set, then bump the spill cost. -/
def scanUse (nesting : Nat) (st : VarSt nv) (idx : Fin nv) (pos : Nat) : VarSt nv :=
  let st := updRange2 st idx pos
  let st := if idx ∈ st.kill then st else { st with gen := insert idx st.gen }
  addSpillCost st idx nesting

/-- Definition of tracked variable `idx` during the new-IR scan
(non-store-membase DREG case, lines 380-382): `update_live_range2` at the
odd slot, set the `kill` bit unconditionally, bump the spill cost. -/
def scanDef (nesting : Nat) (st : VarSt nv) (idx : Fin nv) (pos : Nat) : VarSt nv :=
  let st := updRange2 st idx pos
  let st := { st with kill := insert idx st.kill }
  addSpillCost st idx nesting

/-- `OP_LDADDR` block of `analyze_liveness_bb` (lines 317-329): a use of
the address-taken variable `inst_p0->inst_c0`. -/
def ldaddrStep (_c : NCfg nv) (dfn nesting : Nat) (ins : NewInst nv)
    (inst_num : Nat) (st : VarSt nv) : VarSt nv :=
  if ins.opcode = OP_LDADDR then
    match ins.p0var with
    | some idx => scanUse nesting st idx ((dfn <<< 16) + inst_num)
    | none => st
  else st

/-- SREG1 block of `analyze_liveness_bb` (lines 333-347). -/
def sreg1Step (c : NCfg nv) (dfn nesting : Nat) (ins : NewInst nv)
    (inst_num : Nat) (st : VarSt nv) : VarSt nv :=
  if (c.ins_info ins.opcode).src1 && (ins.sreg1 != -1) then
    match c.vreg_to_inst ins.sreg1 with
    | some idx => scanUse nesting st idx ((dfn <<< 16) + inst_num)
    | none => st
  else st

/-- SREG2 block of `analyze_liveness_bb` (lines 349-363). -/
def sreg2Step (c : NCfg nv) (dfn nesting : Nat) (ins : NewInst nv)
    (inst_num : Nat) (st : VarSt nv) : VarSt nv :=
  if (c.ins_info ins.opcode).src2 && (ins.sreg2 != -1) then
    match c.vreg_to_inst ins.sreg2 with
    | some idx => scanUse nesting st idx ((dfn <<< 16) + inst_num)
    | none => st
  else st

/-- DREG block of `analyze_liveness_bb` (lines 365-384): a store-membase
destination is a use of the base variable, any other destination write is
a definition (killed at the odd slot `inst_num + 1`). -/
def dregStep (c : NCfg nv) (dfn nesting : Nat) (ins : NewInst nv)
    (inst_num : Nat) (st : VarSt nv) : VarSt nv :=
  if (c.ins_info ins.opcode).dest && (ins.dreg != -1) then
    match c.vreg_to_inst ins.dreg with
    | some idx =>
      if c.is_store_membase ins.opcode then scanUse nesting st idx ((dfn <<< 16) + inst_num)
      else scanDef nesting st idx ((dfn <<< 16) + inst_num + 1)
    | none => st
  else st

/-- Body of the instruction loop of `analyze_liveness_bb`
(lines 307-385): skip `OP_NOP`s, else run the `OP_LDADDR`, SREG1, SREG2
and DREG blocks in source order ("SREGs must come first, so
MOVE r <- r is handled correctly"). -/
def analyze_liveness_ins (c : NCfg nv) (dfn nesting : Nat) (st : VarSt nv)
    (ins : NewInst nv) (inst_num : Nat) : VarSt nv :=
  if ins.opcode = OP_NOP then st
  else
    dregStep c dfn nesting ins inst_num
      (sreg2Step c dfn nesting ins inst_num
        (sreg1Step c dfn nesting ins inst_num
          (ldaddrStep c dfn nesting ins inst_num st)))

/-- `analyze_liveness_bb`'s instruction loop over a block's code,
`inst_num` stepping by 2 per instruction (line 307). -/
def analyze_liveness_code (c : NCfg nv) (dfn nesting : Nat) :
    List (NewInst nv) → Nat → VarSt nv → VarSt nv
  | [], _, st => st
  | ins :: rest, inst_num, st =>
      analyze_liveness_code c dfn nesting rest (inst_num + 2)
        (analyze_liveness_ins c dfn nesting st ins inst_num)

/-!
## Old-IR per-tree scan: `update_gen_kill_set` (liveness.c lines 86-169)

Old-IR `MonoInst`s are trees; `mono_burg_arity [opcode]` tells how many of
`inst_i0`/`inst_i1` are sub-trees to recurse into.  `inst_i0->inst_c0` is
the tracked-variable index for direct load/store trees.
-/

/-- Tree-shaped (old-IR) `MonoInst`.  Only the fields read by
`update_gen_kill_set` / `update_volatile` are modelled. -/
inductive MInst (nv : Nat) : Type where
  | mk (opcode : Nat) (ssa_op : Nat) (inst_c0 : Fin nv) (i0 i1 : Option (MInst nv))

def MInst.opcode : MInst nv → Nat
  | .mk op _ _ _ _ => op

def MInst.ssa_op : MInst nv → Nat
  | .mk _ s _ _ _ => s

def MInst.inst_c0 : MInst nv → Fin nv
  | .mk _ _ c _ _ => c

def MInst.i0 : MInst nv → Option (MInst nv)
  | .mk _ _ _ a _ => a

def MInst.i1 : MInst nv → Option (MInst nv)
  | .mk _ _ _ _ b => b

/-- External collaborators consumed by the old-IR paths:
`cfg->varinfo[i]->opcode` (for the `CEE_JMP` argument loop),
`cfg->aliasing_info != NULL`, the aliasing oracle
`mono_aliasing_get_affected_variables_for_inst_traversing_code` (a
`MonoLocalVariableList` modelled as a list of variable indices), and
`mono_burg_arity`. -/
structure OCfg (nv : Nat) where
  varinfo_opcode : Fin nv → Nat
  has_aliasing : Bool
  affected : MInst nv → List (Fin nv)
  burg_arity : Nat → Nat

/-- Lines 100-113 of `update_gen_kill_set`: the affected-variable list
for a load/store tree - the aliasing oracle's answer when an aliasing
collaborator is attached, else the single exact variable
`inst->inst_i0->inst_c0` for exact loads/stores/`OP_DUMMY_STORE`. -/
def affectedVars (c : OCfg nv) (inst : MInst nv) : List (Fin nv) :=
  if c.has_aliasing then c.affected inst
  else if inst.ssa_op = MONO_SSA_LOAD ∨ inst.ssa_op = MONO_SSA_STORE ∨
      inst.opcode = OP_DUMMY_STORE then
    match inst.i0 with
    | some a => [a.inst_c0]
    | none => []
  else []

/-- Body of the per-affected-variable loop in the load branch of
`update_gen_kill_set` (lines 117-135): mark the variable volatile when
the block is in a non-try exception region, widen its live range
(`update_live_range`, whose `abs_pos` is `(block_dfn << 16) | tree_pos`),
set its `gen` bit unless its `kill` bit is set, and - for exact
`MONO_SSA_LOAD`s - bump its spill cost. -/
def genKillLoadVar (region : Int) (in_try_region : Bool) (dfn nesting : Nat)
    (exact_load : Bool) (inst_num : Nat) (st : VarSt nv) (idx : Fin nv) : VarSt nv :=
  let st :=
    if region ≠ -1 ∧ ¬ in_try_region then
      { st with vol := Function.update st.vol idx true }
    else st
  let st := updRange2 st idx ((dfn <<< 16) ||| inst_num)
  let st := if idx ∈ st.kill then st else { st with gen := insert idx st.gen }
  if exact_load then addSpillCost st idx nesting else st

/-- Body of the per-affected-variable loop in the store branch of
`update_gen_kill_set` (lines 137-157): volatile marking and live-range
widening as in the load branch, then set the `kill` bit unconditionally,
and - for exact `MONO_SSA_STORE`s - bump the spill cost. -/
def genKillStoreVar (region : Int) (in_try_region : Bool) (dfn nesting : Nat)
    (exact_store : Bool) (inst_num : Nat) (st : VarSt nv) (idx : Fin nv) : VarSt nv :=
  let st :=
    if region ≠ -1 ∧ ¬ in_try_region then
      { st with vol := Function.update st.vol idx true }
    else st
  let st := updRange2 st idx ((dfn <<< 16) ||| inst_num)
  let st := { st with kill := insert idx st.kill }
  if exact_store then addSpillCost st idx nesting else st

/-- Body of the `CEE_JMP` argument loop (lines 159-168): every variable
whose `varinfo` opcode is `OP_ARG` is added to `gen` unless killed. -/
def genKillJmpVar (c : OCfg nv) (st : VarSt nv) (i : Fin nv) : VarSt nv :=
  if c.varinfo_opcode i = OP_ARG then
    if i ∈ st.kill then st else { st with gen := insert i st.gen }
  else st

/-- Non-recursive part of `update_gen_kill_set` (lines 99-168): the
load/store dispatch over the affected-variable list, or the `CEE_JMP`
keep-arguments-live loop. -/
def genKillDispatch (c : OCfg nv) (region : Int) (in_try_region : Bool)
    (dfn nesting : Nat) (inst_num : Nat) (inst : MInst nv) (st : VarSt nv) : VarSt nv :=
  if inst.ssa_op &&& MONO_SSA_LOAD_STORE ≠ 0 ∨ inst.opcode = OP_DUMMY_STORE then
    let avs := affectedVars c inst
    if inst.ssa_op &&& MONO_SSA_LOAD ≠ 0 then
      avs.foldl
        (genKillLoadVar region in_try_region dfn nesting
          (inst.ssa_op = MONO_SSA_LOAD) inst_num) st
    else if inst.ssa_op = MONO_SSA_STORE ∨ inst.opcode = OP_DUMMY_STORE then
      avs.foldl
        (genKillStoreVar region in_try_region dfn nesting
          (inst.ssa_op = MONO_SSA_STORE) inst_num) st
    else st
  else if inst.opcode = CEE_JMP then
    (List.finRange nv).foldl (genKillJmpVar c) st
  else st

/-- `update_gen_kill_set` (lines 86-169): recurse into the sub-trees
given by `mono_burg_arity` (lines 92-97), then run the load/store /
`CEE_JMP` dispatch on the tree's own operation. -/
def update_gen_kill_set (c : OCfg nv) (region : Int) (in_try_region : Bool)
    (dfn nesting : Nat) (inst_num : Nat) : VarSt nv → MInst nv → VarSt nv
  | st0, .mk op ssa c0 i0 i1 =>
    let arity := c.burg_arity op
    let st1 :=
      if arity ≠ 0 then
        match i0 with
        | some ch => update_gen_kill_set c region in_try_region dfn nesting inst_num st0 ch
        | none => st0
      else st0
    let st2 :=
      if arity > 1 then
        match i1 with
        | some ch => update_gen_kill_set c region in_try_region dfn nesting inst_num st1 ch
        | none => st1
      else st1
    genKillDispatch c region in_try_region dfn nesting inst_num (.mk op ssa c0 i0 i1) st2

/-- The old-IR block scan (lines 449-454 of `mono_analyze_liveness`):
`update_gen_kill_set` over the block's trees, `tree_num` stepping by 1. -/
def update_gen_kill_code (c : OCfg nv) (region : Int) (in_try_region : Bool)
    (dfn nesting : Nat) : List (MInst nv) → Nat → VarSt nv → VarSt nv
  | [], _, st => st
  | inst :: rest, tree_num, st =>
      update_gen_kill_code c region in_try_region dfn nesting rest (tree_num + 1)
        (update_gen_kill_set c region in_try_region dfn nesting tree_num st inst)

/-- The state of variable `v` that the spec's "kill wins" rule preserves:
`v` is in the block's `kill` set and not in its `gen` set. -/
def KillNotGen (v : Fin nv) (st : VarSt nv) : Prop := v ∈ st.kill ∧ v ∉ st.gen

/-!
## The backward dataflow worklist solver (liveness.c lines 468-585)

Blocks are identified with their index in `cfg->bblocks`, which is the
block's depth-first number (`in_worklist` is indexed by `bb->dfn` in the
C code).  Every block of the model is in the bblocks array, so the
`in_bb->gen_set` NULL-guard of line 549 (defending against blocks outside
the array) is always true here.
-/

/-- CFG data consumed by the solver: successor/predecessor lists and the
per-block `gen`/`kill` sets computed by the scan. -/
structure SCfg (n nv : Nat) where
  succ : Fin n → List (Fin n)
  pred : Fin n → List (Fin n)
  gen : Fin n → Finset (Fin nv)
  kill : Fin n → Finset (Fin nv)

/-- Solver state: per-block `live_in_set` (`none` = the NULL pointer of
line 428, lazily created), `live_out_set`, and the worklist (head = top of
the stack `worklist [l_end - 1]`) with its `in_worklist` flags. -/
structure SSt (n nv : Nat) where
  live_in : Fin n → Option (Finset (Fin nv))
  live_out : Fin n → Finset (Fin nv)
  worklist : List (Fin n)
  in_worklist : Fin n → Bool

/-- The transfer function `(live_out − kill) ∪ gen` (copy/sub/union
sequences at lines 526-528, 539-541, 581-583). -/
def liveInOf (c : SCfg n nv) (st : SSt n nv) (b : Fin n) : Finset (Fin nv) :=
  (st.live_out b \ c.kill b) ∪ c.gen b

/-- The block's `live_in` as later passes read it: the stored set when
created, else what the lazy initialization / cleanup pass would store. -/
def liveInF (c : SCfg n nv) (st : SSt n nv) (b : Fin n) : Finset (Fin nv) :=
  (st.live_in b).getD (liveInOf c st b)

/-- Lines 522-529: lazily create a successor's `live_in_set` as
`(live_out − kill) ∪ gen`. -/
def allocLiveIn (c : SCfg n nv) (st : SSt n nv) (o : Fin n) : SSt n nv :=
  if (st.live_in o).isSome then st
  else { st with live_in := Function.update st.live_in o (some (liveInOf c st o)) }

/-- Line 531: fold the successor's `live_in` into the popped block's
`live_out`. -/
def unionLiveOut (st : SSt n nv) (b o : Fin n) : SSt n nv :=
  { st with live_out :=
      Function.update st.live_out b (st.live_out b ∪ (st.live_in o).getD ∅) }

/-- One iteration of the successor loop (lines 519-532). -/
def succStep (c : SCfg n nv) (b : Fin n) (st : SSt n nv) (o : Fin n) : SSt n nv :=
  unionLiveOut (allocLiveIn c st o) b o

/-- The successor loop of the popped block `b` (lines 519-532). -/
def succLoop (c : SCfg n nv) (b : Fin n) (st : SSt n nv) : SSt n nv :=
  (c.succ b).foldl (succStep c b) st

/-- Lines 534-541: (re)create `b`'s `live_in` from its updated `live_out`. -/
def recomputeLiveIn (c : SCfg n nv) (st : SSt n nv) (b : Fin n) : SSt n nv :=
  { st with live_in := Function.update st.live_in b (some (liveInOf c st b)) }

/-- Lines 543-560: push one predecessor on top of the worklist unless it
is already pending (every block of the model has a `gen_set`, so the
NULL-guard of line 549 holds). -/
def pushPred (st : SSt n nv) (p : Fin n) : SSt n nv :=
  if st.in_worklist p then st
  else
    { st with
      worklist := p :: st.worklist
      in_worklist := Function.update st.in_worklist p true }

/-- The predecessor push loop of the popped block `b`. -/
def pushPreds (c : SCfg n nv) (b : Fin n) (st : SSt n nv) : SSt n nv :=
  (c.pred b).foldl pushPred st

/-- Body of one worklist iteration for the popped block `b`
(lines 505-561): skip blocks with no successors; otherwise run the
successor loop, and when this was the first pass over `b` (`live_in_set`
was NULL, `changed = TRUE`) or `b`'s `live_out` changed, recompute `b`'s
`live_in` and push `b`'s predecessors. -/
def solveBody (c : SCfg n nv) (b : Fin n) (st : SSt n nv) : SSt n nv :=
  if c.succ b = [] then st
  else if (st.live_in b).isNone = true ∨ st.live_out b ≠ (succLoop c b st).live_out b then
    pushPreds c b (recomputeLiveIn c (succLoop c b st) b)
  else succLoop c b st

/-- One iteration of the `while (l_end != 0)` loop: pop the top of the
worklist, clear its flag (lines 488-492), run the body. -/
def solveStep (c : SCfg n nv) (st : SSt n nv) : SSt n nv :=
  match st.worklist with
  | [] => st
  | b :: rest =>
      solveBody c b
        { st with worklist := rest, in_worklist := Function.update st.in_worklist b false }

/-- The `while (l_end != 0)` loop (lines 487-562), fuel-indexed: the C
loop has no structural bound, so the model runs `fuel` iterations and
stops early when the worklist empties.  `worklist_loop_terminates` shows
some fuel reaches the empty worklist. -/
def solveLoop (c : SCfg n nv) : Nat → SSt n nv → SSt n nv
  | 0, st => st
  | fuel + 1, st => if st.worklist = [] then st else solveLoop c fuel (solveStep c st)

/-- Initial solver state (lines 420-483): `live_in_set` NULL and
`live_out_set` empty for every block, the worklist seeded with every
block in increasing dfn order - so the stack pops blocks in decreasing
dfn order - and every `in_worklist` flag set. -/
def solveInit (n nv : Nat) : SSt n nv :=
  { live_in := fun _ => none
    live_out := fun _ => ∅
    worklist := (List.finRange n).reverse
    in_worklist := fun _ => true }

/-- The cleanup pass (lines 573-585): `live_in` for every block, filling
the still-missing ones with `(live_out − kill) ∪ gen`. -/
def cleanupLiveIn (c : SCfg n nv) (st : SSt n nv) : Fin n → Finset (Fin nv) :=
  fun b => liveInF c st b

/-- Union of `f` over a successor list (`live_out[B] = ∪ live_in[S]`). -/
def unionSucc (f : Fin n → Finset (Fin nv)) : List (Fin n) → Finset (Fin nv)
  | [] => ∅
  | s :: rest => f s ∪ unionSucc f rest

/-- Worklist sanity: pending blocks are exactly the flagged ones, without
duplicates (the C worklist array holds at most one entry per block, which
also bounds `l_end`). -/
def WorklistInv (st : SSt n nv) : Prop :=
  st.worklist.Nodup ∧ ∀ b : Fin n, (b ∈ st.worklist ↔ st.in_worklist b = true)

/-- Every created `live_in_set` holds `(live_out − kill) ∪ gen` of the
block's current `live_out`. -/
def StoredInv (c : SCfg n nv) (st : SSt n nv) : Prop :=
  ∀ b x, st.live_in b = some x → x = liveInOf c st b

/-- `live_out` never exceeds the union of the successors' `live_in`. -/
def OutUBInv (c : SCfg n nv) (st : SSt n nv) : Prop :=
  ∀ b, ∀ v ∈ st.live_out b, ∃ s ∈ c.succ b, v ∈ liveInF c st s

/-- A block that is not pending has absorbed all its successors'
`live_in` sets into its `live_out`. -/
def DoneInv (c : SCfg n nv) (st : SSt n nv) : Prop :=
  ∀ b, st.in_worklist b = false → ∀ s ∈ c.succ b, liveInF c st s ⊆ st.live_out b

/-- All solver invariants together. -/
def SolverInv (c : SCfg n nv) (st : SSt n nv) : Prop :=
  WorklistInv st ∧ StoredInv c st ∧ OutUBInv c st ∧ DoneInv c st

/-- Number of blocks whose `live_in_set` is still NULL. -/
def noneCount (st : SSt n nv) : Nat :=
  (Finset.univ.filter (fun b : Fin n => (st.live_in b).isNone)).card

/-- Total number of bits still clear across the `live_out` sets. -/
def outSlack (st : SSt n nv) : Nat :=
  ∑ b : Fin n, (nv - (st.live_out b).card)

/-- Termination measure of the worklist loop: `live_in` allocations and
`live_out` bits only ever move one way, and the worklist length is
bounded by `n`. -/
def solverMeasure (st : SSt n nv) : Nat :=
  (noneCount st + outSlack st) * (n + 1) + st.worklist.length

/-- A concrete two-block CFG (an edge from block 1 to block 0, matching
decreasing-dfn processing of a forward edge) for the closed witnesses. -/
def exSCfg : SCfg 2 1 :=
  { succ := fun b => if b = 1 then [0] else []
    pred := fun b => if b = 0 then [1] else []
    gen := fun b => if b = 0 then {0} else ∅
    kill := fun _ => ∅ }

/-!
## The phases of `mono_analyze_liveness` after the fixpoint

Lines 587-656: the per-chunk live-range widening loop, then
`handle_exception_clauses`, then the argument first-use adjustment, then
`optimize_initlocals`.  They share one state record.
-/

/-- Static, per-compilation data consumed by the post-fixpoint phases.
Blocks are identified with their index in `cfg->bblocks` (= `bb->dfn`). -/
structure ACfg (n nv : Nat) where
  succ : Fin n → List (Fin n)
  region : Fin n → Int
  in_try_region : Fin n → Bool
  new_ir : Bool
  ncfg : NCfg nv
  ocfg : OCfg nv
  old_code : Fin n → List (MInst nv)
  varinfo_opcode : Fin nv → Nat
  ret : Option (Fin nv)
  indirect : Fin nv → Bool
  entry_next : Fin n

/-- State mutated by the post-fixpoint phases: per-variable live range /
spill cost / `MONO_INST_VOLATILE` bit, the per-block `live_in`/`live_out`
sets produced by the fixpoint (read, never written, by these phases), and
the blocks' lowered instruction lists (`optimize_initlocals` rewrites the
init-locals block's list in place). -/
structure AState (n nv : Nat) where
  range : Fin nv → MonoLiveRange
  spill_costs : Fin nv → Int
  vol : Fin nv → Bool
  live_in : Fin n → Finset (Fin nv)
  live_out : Fin n → Finset (Fin nv)
  code : Fin n → List (NewInst nv)

/-- `update_live_range2 (&vars [k], ...)` on the shared state. -/
def updRangeA (st : AState n nv) (idx : Fin nv) (abs_pos : Nat) : AState n nv :=
  { st with range := Function.update st.range idx (update_live_range2 (st.range idx) abs_pos) }

/-- Body of the bit scan of the live-range widening loop (lines 612-620):
a variable `k` live into block `b` is recorded at the block entry position
`abs_pos + 0`, one live out of `b` at the block exit position
`abs_pos + 0xffff`.  The C code walks the two bit sets one
`BITS_PER_CHUNK`-bit word at a time (shifting `bits_in`/`bits_out` until
both are zero, so exactly the set bits are visited; the local `end` is
never read); this is its per-bit effect, in the same per-`k` order. -/
def widenBitIn (b : Fin n) (st : AState n nv) (k : Fin nv) : AState n nv :=
  if k ∈ st.live_in b then updRangeA st k ((b.val <<< 16) + 0) else st

def widenBitOut (b : Fin n) (st : AState n nv) (k : Fin nv) : AState n nv :=
  if k ∈ st.live_out b then updRangeA st k ((b.val <<< 16) + 0xffff) else st

def widenBit (b : Fin n) (st : AState n nv) (k : Fin nv) : AState n nv :=
  widenBitOut b (widenBitIn b st k) k

/-- One block of the widening loop: all variable bits of block `b`. -/
def widenBlock (st : AState n nv) (b : Fin n) : AState n nv :=
  (List.finRange nv).foldl (widenBit b) st

/-- The live-range widening loop over all blocks (lines 587-622). -/
def extendRanges (st : AState n nv) : AState n nv :=
  (List.finRange n).foldl widenBlock st

/-- Variables referenced by a new-IR instruction, as collected by the
`cfg->new_ir` branch of `visit_bb` (lines 221-254): skip `OP_NOP`s, then
the destination and the two sources, each when present (`!= -1`) and
mapped by `get_vreg_to_inst` to a tracked variable. -/
def insRefVars (c : ACfg n nv) (ins : NewInst nv) : List (Fin nv) :=
  if ins.opcode = OP_NOP then []
  else
    (if ins.dreg != -1 then (c.ncfg.vreg_to_inst ins.dreg).toList else []) ++
    ((if ins.sreg1 != -1 then (c.ncfg.vreg_to_inst ins.sreg1).toList else []) ++
      (if ins.sreg2 != -1 then (c.ncfg.vreg_to_inst ins.sreg2).toList else []))

/-- Lines 183-197 of `update_volatile`: the affected-variable list - the
aliasing oracle's answer when attached, else the single exact variable for
exact loads/stores. -/
def volAffectedVars (c : OCfg nv) (inst : MInst nv) : List (Fin nv) :=
  if c.has_aliasing then c.affected inst
  else if inst.ssa_op = MONO_SSA_LOAD ∨ inst.ssa_op = MONO_SSA_STORE then
    match inst.i0 with
    | some a => [a.inst_c0]
    | none => []
  else []

/-- Variables marked volatile by `update_volatile` (lines 171-208) on one
old-IR tree: recurse into the sub-trees given by `mono_burg_arity`, and
collect the affected variables of every load/store operation. -/
def update_volatile_vars (c : OCfg nv) : MInst nv → List (Fin nv)
  | .mk op ssa c0 i0 i1 =>
    let l0 :=
      if c.burg_arity op ≠ 0 then
        match i0 with
        | some ch => update_volatile_vars c ch
        | none => []
      else []
    let l1 :=
      if c.burg_arity op > 1 then
        match i1 with
        | some ch => update_volatile_vars c ch
        | none => []
      else []
    l0 ++ (l1 ++
      (if ssa &&& MONO_SSA_LOAD_STORE ≠ 0 then volAffectedVars c (.mk op ssa c0 i0 i1) else []))

/-- Variables referenced in block `b` for volatility marking: the new-IR
instruction walk or the old-IR `update_volatile` tree walk, per
`cfg->new_ir` (lines 219-262 of `visit_bb`). -/
def blockRefVars (c : ACfg n nv) (code : Fin n → List (NewInst nv)) (b : Fin n) :
    List (Fin nv) :=
  if c.new_ir then (code b).foldr (fun ins acc => insRefVars c ins ++ acc) []
  else (c.old_code b).foldr (fun inst acc => update_volatile_vars c.ocfg inst ++ acc) []

/-- Set the `MONO_INST_VOLATILE` bit of every variable referenced in
block `b`. -/
def markBlockVars (c : ACfg n nv) (code : Fin n → List (NewInst nv)) (b : Fin n)
    (vol : Fin nv → Bool) : Fin nv → Bool :=
  fun v => vol v || decide (v ∈ blockRefVars c code b)

/-- `visit_bb` (lines 210-273) with its recursion turned into an explicit
work stack: skip already-visited blocks, else mark every variable the
block references volatile and flood on to all successors (the recursive
calls of line 270-272 become stack pushes; the set of visited blocks and
the final flags are the same). -/
def visitBBs (c : ACfg n nv) (code : Fin n → List (NewInst nv)) :
    List (Fin n) → Finset (Fin n) × (Fin nv → Bool) → Finset (Fin n) × (Fin nv → Bool)
  | [], s => s
  | b :: stack, s =>
    if b ∈ s.1 then visitBBs c code stack s
    else visitBBs c code (c.succ b ++ stack) (insert b s.1, markBlockVars c code b s.2)
  termination_by stack s => (n - s.1.card, stack.length)
  decreasing_by
  · exact Prod.Lex.right _ (Nat.lt_succ_self _)
  · refine Prod.Lex.left _ _ ?_
    have hlt : s.1.card < (insert b s.1).card := by
      rw [Finset.card_insert_of_not_mem (by assumption)]
      omega
    have hle : (insert b s.1).card ≤ n := by
      simpa using Finset.card_le_card (Finset.subset_univ (insert b s.1))
    omega

/-- Forward reachability along successor edges (`bb->out_bb`), as flooded
by `visit_bb`'s recursion. -/
def Reaches (c : ACfg n nv) (a b : Fin n) : Prop :=
  Relation.ReflTransGen (fun x y => y ∈ c.succ x) a b

/-- The flood roots of `handle_exception_clauses` (lines 289-295): every
block whose exception-region tag is set (`region != -1`) and which is not
in a try body.  The `for (bb = cfg->bb_entry; bb; bb = bb->next_bb)` chain
enumerates the method's blocks. -/
def hecRoots (c : ACfg n nv) : List (Fin n) :=
  (List.finRange n).filter (fun b => !(c.region b == -1 || c.in_try_region b))

/-- `handle_exception_clauses` (lines 275-297): flood from every root,
sharing one visited set across the roots, marking every variable
referenced in a visited block volatile. -/
def handle_exception_clauses (c : ACfg n nv) (st : AState n nv) : AState n nv :=
  { st with vol := ((hecRoots c).foldl (fun s b => visitBBs c st.code [b] s) (∅, st.vol)).2 }

/-- Lines 639-643 of `mono_analyze_liveness`: every variable whose
`varinfo` opcode is `OP_ARG` has its `first_use.abs_pos` set to 0. -/
def argRangeAdjust (c : ACfg n nv) (st : AState n nv) : AState n nv :=
  (List.finRange nv).foldl (fun st i =>
    if c.varinfo_opcode i = OP_ARG then
      { st with range := Function.update st.range i { st.range i with first_use := 0 } }
    else st) st

/-- First pass of `optimize_initlocals` (lines 672-685): the
"used-within-block" vreg set - sources per the opcode descriptor, plus the
destination of store-membase instructions. -/
def initlocalsUsed (c : ACfg n nv) (code : List (NewInst nv)) : Finset Int :=
  code.foldl (fun used ins =>
    let used := if (c.ncfg.ins_info ins.opcode).src1 then insert ins.sreg1 used else used
    let used := if (c.ncfg.ins_info ins.opcode).src2 then insert ins.sreg2 used else used
    if c.ncfg.is_store_membase ins.opcode then insert ins.dreg used else used) ∅

/-- Condition under which the second pass of `optimize_initlocals`
(lines 687-706) nullifies an instruction: a non-store-membase register
destination mapping to a tracked variable that is not used within the
block, not live on exit, not the return variable, carries neither the
volatile nor the indirect flag - and the opcode is one of the recognized
constant loads. -/
def initlocalsDead (c : ACfg n nv) (used : Finset Int) (live_out : Finset (Fin nv))
    (vol : Fin nv → Bool) (ins : NewInst nv) : Bool :=
  if (c.ncfg.ins_info ins.opcode).dest && !(c.ncfg.is_store_membase ins.opcode) then
    match c.ncfg.vreg_to_inst ins.dreg with
    | some idx =>
      if ins.dreg ∉ used ∧ idx ∉ live_out ∧ some idx ≠ c.ret
          ∧ vol idx = false ∧ c.indirect idx = false then
        decide (ins.opcode = OP_ICONST ∨ ins.opcode = OP_I8CONST ∨ ins.opcode = OP_R8CONST)
      else false
    | none => false
  else false

/-- Second pass of `optimize_initlocals` (lines 687-706): nullify each
dead constant load (`NULLIFY_INS` sets the opcode to `OP_NOP`) and
decrement its destination variable's spill cost by 1. -/
def initlocalsPass2 (c : ACfg n nv) (used : Finset Int) (live_out : Finset (Fin nv))
    (vol : Fin nv → Bool) :
    List (NewInst nv) → (Fin nv → Int) → List (NewInst nv) × (Fin nv → Int)
  | [], spill_costs => ([], spill_costs)
  | ins :: rest, spill_costs =>
    if initlocalsDead c used live_out vol ins then
      let spill_costs' :=
        match c.ncfg.vreg_to_inst ins.dreg with
        | some idx => Function.update spill_costs idx (spill_costs idx - 1)
        | none => spill_costs
      let r := initlocalsPass2 c used live_out vol rest spill_costs'
      ({ ins with opcode := OP_NOP } :: r.1, r.2)
    else
      let r := initlocalsPass2 c used live_out vol rest spill_costs
      (ins :: r.1, r.2)

/-- `optimize_initlocals` (lines 665-709) on the init-locals block
`cfg->bb_entry->next_bb`. -/
def optimize_initlocals (c : ACfg n nv) (st : AState n nv) : AState n nv :=
  let initlocals_code := st.code c.entry_next
  let used := initlocalsUsed c initlocals_code
  let r := initlocalsPass2 c used (st.live_out c.entry_next) st.vol initlocals_code
    st.spill_costs
  { st with code := Function.update st.code c.entry_next r.1, spill_costs := r.2 }

/-- Everything `mono_analyze_liveness` runs after the dataflow fixpoint
and its cleanup pass (lines 587-656): the live-range widening loop,
`handle_exception_clauses`, the argument first-use adjustment, and
`optimize_initlocals`. -/
def post_fixpoint (c : ACfg n nv) (st : AState n nv) : AState n nv :=
  optimize_initlocals c (argRangeAdjust c (handle_exception_clauses c (extendRanges st)))

/-- A tiny concrete one-block, one-variable configuration used by the
closed witnesses below. -/
def exACfg : ACfg 1 1 :=
  { succ := fun _ => []
    region := fun _ => -1
    in_try_region := fun _ => false
    new_ir := true
    ncfg := { ins_info := fun _ => ⟨false, false, false⟩
              is_store_membase := fun _ => false
              vreg_to_inst := fun _ => none }
    ocfg := { varinfo_opcode := fun _ => OP_ARG
              has_aliasing := false
              affected := fun _ => []
              burg_arity := fun _ => 0 }
    old_code := fun _ => []
    varinfo_opcode := fun _ => OP_ARG
    ret := none
    indirect := fun _ => false
    entry_next := 0 }

/-- A tiny concrete state for the closed witnesses below. -/
def exAState : AState 1 1 :=
  { range := fun _ => ⟨4294967295, 0⟩
    spill_costs := fun _ => 0
    vol := fun _ => false
    live_in := fun _ => {0}
    live_out := fun _ => {0}
    code := fun _ => [] }

end Liveness

/-! ## Theorems -/

namespace Liveness

/-! Helper lemmas about the gen/kill handlers. -/

theorem scanUse_kill (nesting : Nat) (st : VarSt nv) (idx : Fin nv) (pos : Nat) :
    (scanUse nesting st idx pos).kill = st.kill := by
  simp only [scanUse, updRange2, addSpillCost]
  split <;> rfl

theorem scanUse_gen (nesting : Nat) (st : VarSt nv) (idx : Fin nv) (pos : Nat) :
    (scanUse nesting st idx pos).gen =
      (if idx ∈ st.kill then st.gen else insert idx st.gen) := by
  simp only [scanUse, updRange2, addSpillCost]
  split <;> rfl

theorem scanDef_kill (nesting : Nat) (st : VarSt nv) (idx : Fin nv) (pos : Nat) :
    (scanDef nesting st idx pos).kill = insert idx st.kill := rfl

theorem scanDef_gen (nesting : Nat) (st : VarSt nv) (idx : Fin nv) (pos : Nat) :
    (scanDef nesting st idx pos).gen = st.gen := rfl

theorem genKillLoadVar_kill (region : Int) (in_try_region : Bool)
    (dfn nesting : Nat) (exact_load : Bool) (inst_num : Nat)
    (st : VarSt nv) (idx : Fin nv) :
    (genKillLoadVar region in_try_region dfn nesting exact_load inst_num st idx).kill
      = st.kill := by
  simp only [genKillLoadVar, updRange2, addSpillCost]
  split <;> split <;> split <;> rfl

theorem genKillLoadVar_gen (region : Int) (in_try_region : Bool)
    (dfn nesting : Nat) (exact_load : Bool) (inst_num : Nat)
    (st : VarSt nv) (idx : Fin nv) :
    (genKillLoadVar region in_try_region dfn nesting exact_load inst_num st idx).gen
      = (if idx ∈ st.kill then st.gen else insert idx st.gen) := by
  simp only [genKillLoadVar, updRange2, addSpillCost]
  split <;> split <;> split <;> rfl

theorem genKillStoreVar_kill (region : Int) (in_try_region : Bool)
    (dfn nesting : Nat) (exact_store : Bool) (inst_num : Nat)
    (st : VarSt nv) (idx : Fin nv) :
    (genKillStoreVar region in_try_region dfn nesting exact_store inst_num st idx).kill
      = insert idx st.kill := by
  simp only [genKillStoreVar, updRange2, addSpillCost]
  split <;> split <;> rfl

theorem genKillStoreVar_gen (region : Int) (in_try_region : Bool)
    (dfn nesting : Nat) (exact_store : Bool) (inst_num : Nat)
    (st : VarSt nv) (idx : Fin nv) :
    (genKillStoreVar region in_try_region dfn nesting exact_store inst_num st idx).gen
      = st.gen := by
  simp only [genKillStoreVar, updRange2, addSpillCost]
  split <;> split <;> rfl

/-! Preservation of `KillNotGen` through both scans (the "kill wins"
discipline: once a variable is killed and not in `gen`, no later use or
definition in the same block puts it into `gen`). -/

theorem foldl_preserves {α : Type u} {β : Type v} {P : α → Prop} (f : α → β → α)
    (hf : ∀ s x, P s → P (f s x)) : ∀ (l : List β) (s : α), P s → P (l.foldl f s)
  | [], _, h => h
  | x :: l, s, h => foldl_preserves f hf l (f s x) (hf s x h)

theorem killNotGen_scanUse (nesting : Nat) (st : VarSt nv) (idx : Fin nv)
    (pos : Nat) (v : Fin nv) (h : KillNotGen v st) :
    KillNotGen v (scanUse nesting st idx pos) := by
  refine ⟨?_, ?_⟩
  · rw [scanUse_kill]; exact h.1
  · rw [scanUse_gen]
    split
    · exact h.2
    · next hk =>
      intro hmem
      rcases Finset.mem_insert.mp hmem with rfl | hmem
      · exact hk h.1
      · exact h.2 hmem

theorem killNotGen_scanDef (nesting : Nat) (st : VarSt nv) (idx : Fin nv)
    (pos : Nat) (v : Fin nv) (h : KillNotGen v st) :
    KillNotGen v (scanDef nesting st idx pos) := by
  refine ⟨?_, ?_⟩
  · rw [scanDef_kill]; exact Finset.mem_insert_of_mem h.1
  · rw [scanDef_gen]; exact h.2

theorem killNotGen_loadVar (region : Int) (in_try_region : Bool)
    (dfn nesting : Nat) (exact_load : Bool) (inst_num : Nat)
    (st : VarSt nv) (idx : Fin nv) (v : Fin nv) (h : KillNotGen v st) :
    KillNotGen v (genKillLoadVar region in_try_region dfn nesting exact_load inst_num st idx) := by
  refine ⟨?_, ?_⟩
  · rw [genKillLoadVar_kill]; exact h.1
  · rw [genKillLoadVar_gen]
    split
    · exact h.2
    · next hk =>
      intro hmem
      rcases Finset.mem_insert.mp hmem with rfl | hmem
      · exact hk h.1
      · exact h.2 hmem

theorem killNotGen_storeVar (region : Int) (in_try_region : Bool)
    (dfn nesting : Nat) (exact_store : Bool) (inst_num : Nat)
    (st : VarSt nv) (idx : Fin nv) (v : Fin nv) (h : KillNotGen v st) :
    KillNotGen v (genKillStoreVar region in_try_region dfn nesting exact_store inst_num st idx) := by
  refine ⟨?_, ?_⟩
  · rw [genKillStoreVar_kill]; exact Finset.mem_insert_of_mem h.1
  · rw [genKillStoreVar_gen]; exact h.2

theorem killNotGen_jmpVar (c : OCfg nv) (st : VarSt nv) (i : Fin nv)
    (v : Fin nv) (h : KillNotGen v st) : KillNotGen v (genKillJmpVar c st i) := by
  unfold genKillJmpVar
  split
  · split
    · exact h
    · next hk =>
      refine ⟨h.1, ?_⟩
      intro hmem
      rcases Finset.mem_insert.mp hmem with rfl | hmem
      · exact hk h.1
      · exact h.2 hmem
  · exact h

theorem killNotGen_ldaddrStep (c : NCfg nv) (dfn nesting : Nat) (ins : NewInst nv)
    (inst_num : Nat) (v : Fin nv) (st : VarSt nv) (h : KillNotGen v st) :
    KillNotGen v (ldaddrStep c dfn nesting ins inst_num st) := by
  unfold ldaddrStep
  repeat' split
  all_goals first
  | exact h
  | exact killNotGen_scanUse _ _ _ _ _ h

theorem killNotGen_sreg1Step (c : NCfg nv) (dfn nesting : Nat) (ins : NewInst nv)
    (inst_num : Nat) (v : Fin nv) (st : VarSt nv) (h : KillNotGen v st) :
    KillNotGen v (sreg1Step c dfn nesting ins inst_num st) := by
  unfold sreg1Step
  repeat' split
  all_goals first
  | exact h
  | exact killNotGen_scanUse _ _ _ _ _ h

theorem killNotGen_sreg2Step (c : NCfg nv) (dfn nesting : Nat) (ins : NewInst nv)
    (inst_num : Nat) (v : Fin nv) (st : VarSt nv) (h : KillNotGen v st) :
    KillNotGen v (sreg2Step c dfn nesting ins inst_num st) := by
  unfold sreg2Step
  repeat' split
  all_goals first
  | exact h
  | exact killNotGen_scanUse _ _ _ _ _ h

theorem killNotGen_dregStep (c : NCfg nv) (dfn nesting : Nat) (ins : NewInst nv)
    (inst_num : Nat) (v : Fin nv) (st : VarSt nv) (h : KillNotGen v st) :
    KillNotGen v (dregStep c dfn nesting ins inst_num st) := by
  unfold dregStep
  repeat' split
  all_goals first
  | exact h
  | exact killNotGen_scanUse _ _ _ _ _ h
  | exact killNotGen_scanDef _ _ _ _ _ h

theorem killNotGen_ins (c : NCfg nv) (dfn nesting : Nat) (ins : NewInst nv)
    (inst_num : Nat) (v : Fin nv) (st : VarSt nv) (h : KillNotGen v st) :
    KillNotGen v (analyze_liveness_ins c dfn nesting st ins inst_num) := by
  unfold analyze_liveness_ins
  split
  · exact h
  · exact killNotGen_dregStep _ _ _ _ _ _ _
      (killNotGen_sreg2Step _ _ _ _ _ _ _
        (killNotGen_sreg1Step _ _ _ _ _ _ _
          (killNotGen_ldaddrStep _ _ _ _ _ _ _ h)))

theorem killNotGen_code (c : NCfg nv) (dfn nesting : Nat) (v : Fin nv) :
    ∀ (code : List (NewInst nv)) (inst_num : Nat) (st : VarSt nv), KillNotGen v st →
      KillNotGen v (analyze_liveness_code c dfn nesting code inst_num st)
  | [], _, _, h => h
  | ins :: rest, n, st, h =>
      killNotGen_code c dfn nesting v rest (n + 2) _
        (killNotGen_ins c dfn nesting ins n v st h)

theorem killNotGen_dispatch (c : OCfg nv) (region : Int) (in_try_region : Bool)
    (dfn nesting inst_num : Nat) (inst : MInst nv) (v : Fin nv) (st : VarSt nv)
    (h : KillNotGen v st) :
    KillNotGen v (genKillDispatch c region in_try_region dfn nesting inst_num inst st) := by
  unfold genKillDispatch
  repeat' split
  · exact foldl_preserves _ (fun s x hs => killNotGen_loadVar _ _ _ _ _ _ s x v hs) _ _ h
  · exact foldl_preserves _ (fun s x hs => killNotGen_storeVar _ _ _ _ _ _ s x v hs) _ _ h
  · exact h
  · exact foldl_preserves _ (fun s x hs => killNotGen_jmpVar c s x v hs) _ _ h
  · exact h

theorem minst_i0_sizeOf {op ssa : Nat} {c0 : Fin nv} {i0 i1 : Option (MInst nv)}
    {ch : MInst nv} (h : i0 = some ch) :
    sizeOf ch < sizeOf (MInst.mk op ssa c0 i0 i1) := by
  subst h
  simp only [MInst.mk.sizeOf_spec, Option.some.sizeOf_spec]
  omega

theorem minst_i1_sizeOf {op ssa : Nat} {c0 : Fin nv} {i0 i1 : Option (MInst nv)}
    {ch : MInst nv} (h : i1 = some ch) :
    sizeOf ch < sizeOf (MInst.mk op ssa c0 i0 i1) := by
  subst h
  simp only [MInst.mk.sizeOf_spec, Option.some.sizeOf_spec]
  omega

theorem killNotGen_ugks_aux (c : OCfg nv) (region : Int) (in_try_region : Bool)
    (dfn nesting : Nat) (v : Fin nv) :
    ∀ (fuel : Nat) (inst : MInst nv), sizeOf inst ≤ fuel →
      ∀ (inst_num : Nat) (st : VarSt nv), KillNotGen v st →
        KillNotGen v (update_gen_kill_set c region in_try_region dfn nesting inst_num st inst) := by
  intro fuel
  induction fuel with
  | zero =>
    intro inst hsz
    cases inst
    simp only [MInst.mk.sizeOf_spec] at hsz
    omega
  | succ k ih =>
    rintro ⟨op, ssa, c0, i0, i1⟩ hsz inst_num st h
    cases i0 with
    | none =>
      have h1 : KillNotGen v (if c.burg_arity op ≠ 0 then st else st) := by
        split <;> exact h
      cases i1 with
      | none =>
        rw [update_gen_kill_set.eq_def]
        dsimp only
        apply killNotGen_dispatch
        split <;> exact h1
      | some ch1 =>
        rw [update_gen_kill_set.eq_def]
        dsimp only
        apply killNotGen_dispatch
        split
        · refine ih ch1 ?_ inst_num _ h1
          have := @minst_i1_sizeOf nv op ssa c0 none (some ch1) ch1 rfl
          omega
        · exact h1
    | some ch0 =>
      have h1 : KillNotGen v (if c.burg_arity op ≠ 0 then
          update_gen_kill_set c region in_try_region dfn nesting inst_num st ch0 else st) := by
        split
        · refine ih ch0 ?_ inst_num st h
          have := @minst_i0_sizeOf nv op ssa c0 (some ch0) i1 ch0 rfl
          omega
        · exact h
      cases i1 with
      | none =>
        rw [update_gen_kill_set.eq_def]
        dsimp only
        apply killNotGen_dispatch
        split <;> exact h1
      | some ch1 =>
        rw [update_gen_kill_set.eq_def]
        dsimp only
        apply killNotGen_dispatch
        split
        · refine ih ch1 ?_ inst_num _ h1
          have := @minst_i1_sizeOf nv op ssa c0 (some ch0) (some ch1) ch1 rfl
          omega
        · exact h1

theorem killNotGen_ugks (c : OCfg nv) (region : Int) (in_try_region : Bool)
    (dfn nesting : Nat) (v : Fin nv) (inst : MInst nv) (inst_num : Nat)
    (st : VarSt nv) (h : KillNotGen v st) :
    KillNotGen v (update_gen_kill_set c region in_try_region dfn nesting inst_num st inst) :=
  killNotGen_ugks_aux c region in_try_region dfn nesting v (sizeOf inst) inst le_rfl inst_num st h

theorem killNotGen_ocode (c : OCfg nv) (region : Int) (in_try_region : Bool)
    (dfn nesting : Nat) (v : Fin nv) :
    ∀ (code : List (MInst nv)) (tree_num : Nat) (st : VarSt nv), KillNotGen v st →
      KillNotGen v (update_gen_kill_code c region in_try_region dfn nesting code tree_num st)
  | [], _, _, h => h
  | inst :: rest, n, st, h =>
      killNotGen_ocode c region in_try_region dfn nesting v rest (n + 1) _
        (killNotGen_ugks c region in_try_region dfn nesting v inst n st h)

/-- C10: in the per-chunk live-range widening loop the branch guarded by
`j == max` is unreachable (the loop iterates `j` only over `0, ..., max-1`),
so on every iteration the local `end` is assigned the full-chunk bound
`(j * BITS_PER_CHUNK) + BITS_PER_CHUNK` and the `rem`-adjusted bound is
never used. -/
theorem chunk_end_branch_unreachable (max_vars : Nat) :
    chunkEndsComputed max_vars =
      (List.range (chunkMax max_vars)).map
        (fun j => j * BITS_PER_CHUNK + BITS_PER_CHUNK) ∧
    (List.range (chunkMax max_vars)).all
        (fun j => decide (¬ j = chunkMax max_vars)) = true := by
  constructor
  · unfold chunkEndsComputed
    apply List.map_congr_left
    intro j hj
    have hlt : j < chunkMax max_vars := List.mem_range.mp hj
    simp [chunkEndAssign, Nat.ne_of_lt hlt]
  · simp only [List.all_eq_true, decide_eq_true_eq]
    intro j hj
    exact Nat.ne_of_lt (List.mem_range.mp hj)

/-- C2: during the gen/kill scan of a block - in either IR path - a use of
tracked variable `v` (new-IR `scanUse`, shared by the `OP_LDADDR`, SREG1,
SREG2 and store-membase DREG sites of `analyze_liveness_bb`; old-IR
`genKillLoadVar`, the per-affected-variable body of the load branch of
`update_gen_kill_set`) adds `v` to the block's `gen` set iff `v` is not in
the block's `kill` set at that point, leaving `kill` unchanged; a
definition of `v` (new-IR `scanDef`, the non-store-membase DREG case;
old-IR `genKillStoreVar`, covering exact and aliasing-reported store
targets) adds `v` to `kill` unconditionally, leaving `gen` unchanged. -/
theorem gen_kill_use_def_discipline (nesting : Nat) (st : VarSt nv) (idx : Fin nv)
    (pos : Nat) (region : Int) (in_try_region : Bool) (dfn inst_num : Nat)
    (exact_load exact_store : Bool) :
    ((scanUse nesting st idx pos).gen
        = (if idx ∈ st.kill then st.gen else insert idx st.gen) ∧
      (scanUse nesting st idx pos).kill = st.kill) ∧
    ((scanDef nesting st idx pos).kill = insert idx st.kill ∧
      (scanDef nesting st idx pos).gen = st.gen) ∧
    ((genKillLoadVar region in_try_region dfn nesting exact_load inst_num st idx).gen
        = (if idx ∈ st.kill then st.gen else insert idx st.gen) ∧
      (genKillLoadVar region in_try_region dfn nesting exact_load inst_num st idx).kill
        = st.kill) ∧
    ((genKillStoreVar region in_try_region dfn nesting exact_store inst_num st idx).kill
        = insert idx st.kill ∧
      (genKillStoreVar region in_try_region dfn nesting exact_store inst_num st idx).gen
        = st.gen) :=
  ⟨⟨scanUse_gen _ _ _ _, scanUse_kill _ _ _ _⟩,
   ⟨scanDef_kill _ _ _ _, scanDef_gen _ _ _ _⟩,
   ⟨genKillLoadVar_gen _ _ _ _ _ _ _ _, genKillLoadVar_kill _ _ _ _ _ _ _ _⟩,
   ⟨genKillStoreVar_kill _ _ _ _ _ _ _ _, genKillStoreVar_gen _ _ _ _ _ _ _ _⟩⟩

/-- C3 counterexample: the gen and kill sets of a block need NOT be
disjoint.  A two-instruction new-IR block that first uses variable 0
(opcode 10, a pure SREG1 reader of vreg 5) and then defines it
(opcode 11, a pure DREG writer of vreg 5) leaves variable 0 in BOTH the
block's gen set and its kill set after `analyze_liveness_bb`'s scan. -/
theorem gen_kill_sets_can_overlap :
    (0 : Fin 1) ∈ (analyze_liveness_code
        { ins_info := fun op => if op = 10 then ⟨false, true, false⟩
            else if op = 11 then ⟨true, false, false⟩ else ⟨false, false, false⟩
          is_store_membase := fun _ => false
          vreg_to_inst := fun r => if r = 5 then some 0 else none }
        0 0
        [{ opcode := 10, dreg := -1, sreg1 := 5, sreg2 := -1, p0var := none },
         { opcode := 11, dreg := 5, sreg1 := -1, sreg2 := -1, p0var := none }]
        0
        { gen := ∅, kill := ∅, range := fun _ => ⟨4294967295, 0⟩,
          spill_costs := fun _ => 0, vol := fun _ => false }).gen ∧
    (0 : Fin 1) ∈ (analyze_liveness_code
        { ins_info := fun op => if op = 10 then ⟨false, true, false⟩
            else if op = 11 then ⟨true, false, false⟩ else ⟨false, false, false⟩
          is_store_membase := fun _ => false
          vreg_to_inst := fun r => if r = 5 then some 0 else none }
        0 0
        [{ opcode := 10, dreg := -1, sreg1 := 5, sreg2 := -1, p0var := none },
         { opcode := 11, dreg := 5, sreg1 := -1, sreg2 := -1, p0var := none }]
        0
        { gen := ∅, kill := ∅, range := fun _ => ⟨4294967295, 0⟩,
          spill_costs := fun _ => 0, vol := fun _ => false }).kill := by
  constructor <;> decide

/-- C3 (amended): a variable need not end up in exactly one of gen/kill
or neither - a use before a definition leaves it in both (see the
counterexample).  What the construction does guarantee, in either IR
path, is the "kill wins" ordering: once a variable is in the block's
kill set and not in its gen set, no later instruction of the block's
scan adds it to gen (so a use after a prior kill in program order never
contributes gen), and it stays killed. -/
theorem kill_wins_within_block (cn : NCfg nv) (co : OCfg nv)
    (dfn nesting inst_num tree_num : Nat) (region : Int) (in_try_region : Bool)
    (codeN : List (NewInst nv)) (codeO : List (MInst nv))
    (st : VarSt nv) (v : Fin nv) (hk : v ∈ st.kill) (hg : v ∉ st.gen) :
    (v ∈ (analyze_liveness_code cn dfn nesting codeN inst_num st).kill ∧
      v ∉ (analyze_liveness_code cn dfn nesting codeN inst_num st).gen) ∧
    (v ∈ (update_gen_kill_code co region in_try_region dfn nesting codeO tree_num st).kill ∧
      v ∉ (update_gen_kill_code co region in_try_region dfn nesting codeO tree_num st).gen) :=
  ⟨killNotGen_code cn dfn nesting v codeN inst_num st ⟨hk, hg⟩,
   killNotGen_ocode co region in_try_region dfn nesting v codeO tree_num st ⟨hk, hg⟩⟩

/-- Closed witness for `kill_wins_within_block`: a one-variable state with
the variable killed, scanned over one further defining instruction in each
IR. -/
theorem kill_wins_within_block_witness :
    ((0 : Fin 1) ∈ (analyze_liveness_code
        { ins_info := fun _ => ⟨true, false, false⟩
          is_store_membase := fun _ => false
          vreg_to_inst := fun _ => some 0 }
        0 0 [{ opcode := 11, dreg := 5, sreg1 := -1, sreg2 := -1, p0var := none }] 0
        { gen := ∅, kill := {0}, range := fun _ => ⟨4294967295, 0⟩,
          spill_costs := fun _ => 0, vol := fun _ => false }).kill ∧
      (0 : Fin 1) ∉ (analyze_liveness_code
        { ins_info := fun _ => ⟨true, false, false⟩
          is_store_membase := fun _ => false
          vreg_to_inst := fun _ => some 0 }
        0 0 [{ opcode := 11, dreg := 5, sreg1 := -1, sreg2 := -1, p0var := none }] 0
        { gen := ∅, kill := {0}, range := fun _ => ⟨4294967295, 0⟩,
          spill_costs := fun _ => 0, vol := fun _ => false }).gen) ∧
    ((0 : Fin 1) ∈ (update_gen_kill_code
        { varinfo_opcode := fun _ => 0, has_aliasing := false,
          affected := fun _ => [], burg_arity := fun _ => 0 }
        (-1) false 0 0 [.mk 9 MONO_SSA_STORE 0 none none] 0
        { gen := ∅, kill := {0}, range := fun _ => ⟨4294967295, 0⟩,
          spill_costs := fun _ => 0, vol := fun _ => false }).kill ∧
      (0 : Fin 1) ∉ (update_gen_kill_code
        { varinfo_opcode := fun _ => 0, has_aliasing := false,
          affected := fun _ => [], burg_arity := fun _ => 0 }
        (-1) false 0 0 [.mk 9 MONO_SSA_STORE 0 none none] 0
        { gen := ∅, kill := {0}, range := fun _ => ⟨4294967295, 0⟩,
          spill_costs := fun _ => 0, vol := fun _ => false }).gen) :=
  kill_wins_within_block
    { ins_info := fun _ => ⟨true, false, false⟩
      is_store_membase := fun _ => false
      vreg_to_inst := fun _ => some 0 }
    { varinfo_opcode := fun _ => 0, has_aliasing := false,
      affected := fun _ => [], burg_arity := fun _ => 0 }
    0 0 0 0 (-1) false
    [{ opcode := 11, dreg := 5, sreg1 := -1, sreg2 := -1, p0var := none }]
    [.mk 9 MONO_SSA_STORE 0 none none]
    { gen := ∅, kill := {0}, range := fun _ => ⟨4294967295, 0⟩,
      spill_costs := fun _ => 0, vol := fun _ => false }
    0 (by decide) (by decide)

/-! Lemmas about live-range widening. -/

theorem update_live_range2_le (r : MonoLiveRange) (p : Nat) :
    (update_live_range2 r p).first_use ≤ p ∧ p ≤ (update_live_range2 r p).last_use := by
  unfold update_live_range2
  constructor <;> dsimp only <;> split <;> omega

theorem update_live_range2_mono (r : MonoLiveRange) (p : Nat) :
    (update_live_range2 r p).first_use ≤ r.first_use ∧
      r.last_use ≤ (update_live_range2 r p).last_use := by
  unfold update_live_range2
  constructor <;> dsimp only <;> split <;> omega

theorem updRangeA_mono (st : AState n nv) (idx : Fin nv) (p : Nat) (v : Fin nv) :
    ((updRangeA st idx p).range v).first_use ≤ (st.range v).first_use ∧
      (st.range v).last_use ≤ ((updRangeA st idx p).range v).last_use := by
  unfold updRangeA
  by_cases h : v = idx
  · subst h
    simp only [Function.update_same]
    exact update_live_range2_mono _ _
  · simp only [Function.update_noteq h]
    exact ⟨le_rfl, le_rfl⟩

theorem widenBitIn_mono (b : Fin n) (st : AState n nv) (k v : Fin nv) :
    ((widenBitIn b st k).range v).first_use ≤ (st.range v).first_use ∧
      (st.range v).last_use ≤ ((widenBitIn b st k).range v).last_use := by
  unfold widenBitIn
  split
  · exact updRangeA_mono st k _ v
  · exact ⟨le_rfl, le_rfl⟩

theorem widenBitOut_mono (b : Fin n) (st : AState n nv) (k v : Fin nv) :
    ((widenBitOut b st k).range v).first_use ≤ (st.range v).first_use ∧
      (st.range v).last_use ≤ ((widenBitOut b st k).range v).last_use := by
  unfold widenBitOut
  split
  · exact updRangeA_mono st k _ v
  · exact ⟨le_rfl, le_rfl⟩

theorem widenBit_mono (b : Fin n) (st : AState n nv) (k v : Fin nv) :
    ((widenBit b st k).range v).first_use ≤ (st.range v).first_use ∧
      (st.range v).last_use ≤ ((widenBit b st k).range v).last_use := by
  unfold widenBit
  have h1 := widenBitIn_mono b st k v
  have h2 := widenBitOut_mono b (widenBitIn b st k) k v
  exact ⟨le_trans h2.1 h1.1, le_trans h1.2 h2.2⟩

theorem rangeMono_foldl {α : Type u} (f : AState n nv → α → AState n nv)
    (hf : ∀ st x v, ((f st x).range v).first_use ≤ (st.range v).first_use ∧
        (st.range v).last_use ≤ ((f st x).range v).last_use) :
    ∀ (l : List α) (st : AState n nv) (v : Fin nv),
      ((l.foldl f st).range v).first_use ≤ (st.range v).first_use ∧
        (st.range v).last_use ≤ ((l.foldl f st).range v).last_use
  | [], _, _ => ⟨le_rfl, le_rfl⟩
  | x :: l, st, v => by
      have h1 := hf st x v
      have h2 := rangeMono_foldl f hf l (f st x) v
      exact ⟨le_trans h2.1 h1.1, le_trans h1.2 h2.2⟩

theorem widenBlock_mono (st : AState n nv) (b : Fin n) (v : Fin nv) :
    ((widenBlock st b).range v).first_use ≤ (st.range v).first_use ∧
      (st.range v).last_use ≤ ((widenBlock st b).range v).last_use :=
  rangeMono_foldl (widenBit b) (fun st k v => widenBit_mono b st k v) _ st v

theorem widenBit_live (b : Fin n) (st : AState n nv) (k : Fin nv) :
    (widenBit b st k).live_in = st.live_in ∧ (widenBit b st k).live_out = st.live_out := by
  unfold widenBit widenBitIn widenBitOut updRangeA
  repeat' split
  all_goals exact ⟨rfl, rfl⟩

theorem widenBlock_live (st : AState n nv) (b : Fin n) :
    (widenBlock st b).live_in = st.live_in ∧ (widenBlock st b).live_out = st.live_out := by
  unfold widenBlock
  generalize List.finRange nv = l
  induction l generalizing st with
  | nil => exact ⟨rfl, rfl⟩
  | cons k l ih =>
    have h1 := widenBit_live b st k
    have h2 := ih (widenBit b st k)
    simp only [List.foldl_cons]
    exact ⟨h2.1.trans h1.1, h2.2.trans h1.2⟩

theorem updRangeA_le (st : AState n nv) (idx : Fin nv) (p : Nat) :
    ((updRangeA st idx p).range idx).first_use ≤ p ∧
      p ≤ ((updRangeA st idx p).range idx).last_use := by
  unfold updRangeA
  simp only [Function.update_same]
  exact update_live_range2_le _ _

theorem widenBit_in_le (b : Fin n) (st : AState n nv) (v : Fin nv)
    (hv : v ∈ st.live_in b) :
    ((widenBit b st v).range v).first_use ≤ (b.val <<< 16) ∧
      (b.val <<< 16) ≤ ((widenBit b st v).range v).last_use := by
  unfold widenBit widenBitIn
  rw [if_pos hv]
  have h1 := updRangeA_le st v ((b.val <<< 16) + 0)
  have h2 := widenBitOut_mono b (updRangeA st v ((b.val <<< 16) + 0)) v v
  omega

theorem widenBit_out_le (b : Fin n) (st : AState n nv) (v : Fin nv)
    (hv : v ∈ st.live_out b) :
    ((widenBit b st v).range v).first_use ≤ (b.val <<< 16) + 0xffff ∧
      (b.val <<< 16) + 0xffff ≤ ((widenBit b st v).range v).last_use := by
  unfold widenBit
  have hout : v ∈ (widenBitIn b st v).live_out b := by
    unfold widenBitIn updRangeA
    split <;> exact hv
  unfold widenBitOut
  rw [if_pos hout]
  exact updRangeA_le _ v _

theorem widenList_in_le (b : Fin n) (v : Fin nv) :
    ∀ (l : List (Fin nv)) (st : AState n nv), v ∈ l → v ∈ st.live_in b →
      ((l.foldl (widenBit b) st).range v).first_use ≤ (b.val <<< 16) ∧
        (b.val <<< 16) ≤ ((l.foldl (widenBit b) st).range v).last_use := by
  intro l
  induction l with
  | nil => intro st hl; exact absurd hl (List.not_mem_nil v)
  | cons k l ih =>
    intro st hl hv
    simp only [List.foldl_cons]
    by_cases hk : k = v
    · subst hk
      have h1 := widenBit_in_le b st k hv
      have h2 := rangeMono_foldl (widenBit b) (fun st x w => widenBit_mono b st x w)
        l (widenBit b st k) k
      omega
    · have hl' : v ∈ l := by
        rcases List.mem_cons.mp hl with h | h
        · exact absurd h.symm hk
        · exact h
      exact ih _ hl' (by rw [(widenBit_live b st k).1]; exact hv)

theorem widenList_out_le (b : Fin n) (v : Fin nv) :
    ∀ (l : List (Fin nv)) (st : AState n nv), v ∈ l → v ∈ st.live_out b →
      ((l.foldl (widenBit b) st).range v).first_use ≤ (b.val <<< 16) + 0xffff ∧
        (b.val <<< 16) + 0xffff ≤ ((l.foldl (widenBit b) st).range v).last_use := by
  intro l
  induction l with
  | nil => intro st hl; exact absurd hl (List.not_mem_nil v)
  | cons k l ih =>
    intro st hl hv
    simp only [List.foldl_cons]
    by_cases hk : k = v
    · subst hk
      have h1 := widenBit_out_le b st k hv
      have h2 := rangeMono_foldl (widenBit b) (fun st x w => widenBit_mono b st x w)
        l (widenBit b st k) k
      omega
    · have hl' : v ∈ l := by
        rcases List.mem_cons.mp hl with h | h
        · exact absurd h.symm hk
        · exact h
      exact ih _ hl' (by rw [(widenBit_live b st k).2]; exact hv)

theorem widenBlock_in_le (st : AState n nv) (b : Fin n) (v : Fin nv)
    (hv : v ∈ st.live_in b) :
    ((widenBlock st b).range v).first_use ≤ (b.val <<< 16) ∧
      (b.val <<< 16) ≤ ((widenBlock st b).range v).last_use :=
  widenList_in_le b v (List.finRange nv) st (List.mem_finRange v) hv

theorem widenBlock_out_le (st : AState n nv) (b : Fin n) (v : Fin nv)
    (hv : v ∈ st.live_out b) :
    ((widenBlock st b).range v).first_use ≤ (b.val <<< 16) + 0xffff ∧
      (b.val <<< 16) + 0xffff ≤ ((widenBlock st b).range v).last_use :=
  widenList_out_le b v (List.finRange nv) st (List.mem_finRange v) hv

theorem extendList_in_le (b : Fin n) (v : Fin nv) :
    ∀ (l : List (Fin n)) (st : AState n nv), b ∈ l → v ∈ st.live_in b →
      ((l.foldl widenBlock st).range v).first_use ≤ (b.val <<< 16) ∧
        (b.val <<< 16) ≤ ((l.foldl widenBlock st).range v).last_use := by
  intro l
  induction l with
  | nil => intro st hmem; exact absurd hmem (List.not_mem_nil b)
  | cons b' l ih =>
    intro st hmem hv
    simp only [List.foldl_cons]
    by_cases hb : b' = b
    · subst hb
      have h1 := widenBlock_in_le st b' v hv
      have h2 := rangeMono_foldl widenBlock (fun st x w => widenBlock_mono st x w)
        l (widenBlock st b') v
      omega
    · have hmem' : b ∈ l := by
        rcases List.mem_cons.mp hmem with h | h
        · exact absurd h.symm hb
        · exact h
      exact ih _ hmem' (by rw [(widenBlock_live st b').1]; exact hv)

theorem extendList_out_le (b : Fin n) (v : Fin nv) :
    ∀ (l : List (Fin n)) (st : AState n nv), b ∈ l → v ∈ st.live_out b →
      ((l.foldl widenBlock st).range v).first_use ≤ (b.val <<< 16) + 0xffff ∧
        (b.val <<< 16) + 0xffff ≤ ((l.foldl widenBlock st).range v).last_use := by
  intro l
  induction l with
  | nil => intro st hmem; exact absurd hmem (List.not_mem_nil b)
  | cons b' l ih =>
    intro st hmem hv
    simp only [List.foldl_cons]
    by_cases hb : b' = b
    · subst hb
      have h1 := widenBlock_out_le st b' v hv
      have h2 := rangeMono_foldl widenBlock (fun st x w => widenBlock_mono st x w)
        l (widenBlock st b') v
      omega
    · have hmem' : b ∈ l := by
        rcases List.mem_cons.mp hmem with h | h
        · exact absurd h.symm hb
        · exact h
      exact ih _ hmem' (by rw [(widenBlock_live st b').2]; exact hv)

theorem extendRanges_in_le (st : AState n nv) (b : Fin n) (v : Fin nv)
    (hv : v ∈ st.live_in b) :
    ((extendRanges st).range v).first_use ≤ (b.val <<< 16) ∧
      (b.val <<< 16) ≤ ((extendRanges st).range v).last_use :=
  extendList_in_le b v (List.finRange n) st (List.mem_finRange b) hv

theorem extendRanges_out_le (st : AState n nv) (b : Fin n) (v : Fin nv)
    (hv : v ∈ st.live_out b) :
    ((extendRanges st).range v).first_use ≤ (b.val <<< 16) + 0xffff ∧
      (b.val <<< 16) + 0xffff ≤ ((extendRanges st).range v).last_use :=
  extendList_out_le b v (List.finRange n) st (List.mem_finRange b) hv

/-! Lemmas about the argument first-use adjustment and the phases that
leave ranges untouched. -/

theorem argRangeAdjust_mono (c : ACfg n nv) (st : AState n nv) (v : Fin nv) :
    ((argRangeAdjust c st).range v).first_use ≤ (st.range v).first_use ∧
      (st.range v).last_use ≤ ((argRangeAdjust c st).range v).last_use := by
  unfold argRangeAdjust
  refine rangeMono_foldl _ ?_ _ st v
  intro st i w
  split
  · by_cases h : w = i
    · subst h
      simp only [Function.update_same]
      exact ⟨Nat.zero_le _, le_rfl⟩
    · simp only [Function.update_noteq h]
      exact ⟨le_rfl, le_rfl⟩
  · exact ⟨le_rfl, le_rfl⟩

theorem argRangeAdjust_first_zero (c : ACfg n nv) (st : AState n nv) (v : Fin nv)
    (h : c.varinfo_opcode v = OP_ARG) :
    ((argRangeAdjust c st).range v).first_use = 0 := by
  unfold argRangeAdjust
  have hmem : v ∈ List.finRange nv := List.mem_finRange v
  revert hmem
  generalize List.finRange nv = l
  induction l generalizing st with
  | nil => intro hmem; exact absurd hmem (List.not_mem_nil v)
  | cons i l ih =>
    intro hmem
    simp only [List.foldl_cons]
    by_cases hi : i = v
    · subst hi
      have hzero : (((if c.varinfo_opcode i = OP_ARG then
          { st with range := Function.update st.range i { st.range i with first_use := 0 } }
          else st) : AState n nv).range i).first_use = 0 := by
        rw [if_pos h]
        simp only [Function.update_same]
      revert hzero
      generalize (if c.varinfo_opcode i = OP_ARG then
          { st with range := Function.update st.range i { st.range i with first_use := 0 } }
          else st : AState n nv) = st1
      intro hzero
      clear ih hmem
      induction l generalizing st1 with
      | nil => exact hzero
      | cons j l ihl =>
        simp only [List.foldl_cons]
        refine ihl _ ?_
        split
        · by_cases hj : i = j
          · subst hj
            simp only [Function.update_same]
          · simp only [Function.update_noteq hj]
            exact hzero
        · exact hzero
    · have hmem' : v ∈ l := by
        rcases List.mem_cons.mp hmem with hh | hh
        · exact absurd hh.symm hi
        · exact hh
      exact ih _ hmem'

theorem hec_range (c : ACfg n nv) (st : AState n nv) :
    (handle_exception_clauses c st).range = st.range := rfl

theorem optimize_initlocals_range (c : ACfg n nv) (st : AState n nv) :
    (optimize_initlocals c st).range = st.range := rfl

/-- C4: after the analysis, every variable live into a block `B` has its
recorded live range containing `B`'s entry position `B.dfn << 16`
(`first_use.abs_pos <= B.dfn << 16 <= last_use.abs_pos`), and every
variable live out of `B` has its range containing `B`'s exit position
`(B.dfn << 16) + 0xffff`.  The live sets are those produced by the
fixpoint (no later phase writes them); `post_fixpoint` runs all the
phases between the fixpoint and the return of `mono_analyze_liveness`,
including the `OP_ARG` first-use adjustment (which only lowers
`first_use` to 0) and `optimize_initlocals` (which never touches
ranges). -/
theorem live_sets_within_recorded_ranges (c : ACfg n nv) (st : AState n nv)
    (b : Fin n) (v : Fin nv) :
    (v ∈ st.live_in b →
      ((post_fixpoint c st).range v).first_use ≤ (b.val <<< 16) ∧
        (b.val <<< 16) ≤ ((post_fixpoint c st).range v).last_use) ∧
    (v ∈ st.live_out b →
      ((post_fixpoint c st).range v).first_use ≤ (b.val <<< 16) + 0xffff ∧
        (b.val <<< 16) + 0xffff ≤ ((post_fixpoint c st).range v).last_use) := by
  have hpost : (post_fixpoint c st).range
      = (argRangeAdjust c (handle_exception_clauses c (extendRanges st))).range := by
    unfold post_fixpoint
    rw [optimize_initlocals_range]
  have hadj := argRangeAdjust_mono c (handle_exception_clauses c (extendRanges st)) v
  rw [hec_range] at hadj
  constructor
  · intro hv
    have h1 := extendRanges_in_le st b v hv
    rw [hpost]
    omega
  · intro hv
    have h1 := extendRanges_out_le st b v hv
    rw [hpost]
    omega

/-- Closed witness for `live_sets_within_recorded_ranges`: a one-block,
one-variable instance with the variable live into and out of the block. -/
theorem live_sets_within_recorded_ranges_witness :
    (((post_fixpoint exACfg exAState).range 0).first_use ≤ ((0 : Fin 1).val <<< 16) ∧
      ((0 : Fin 1).val <<< 16) ≤ ((post_fixpoint exACfg exAState).range 0).last_use) ∧
    (((post_fixpoint exACfg exAState).range 0).first_use ≤ ((0 : Fin 1).val <<< 16) + 0xffff ∧
      ((0 : Fin 1).val <<< 16) + 0xffff ≤ ((post_fixpoint exACfg exAState).range 0).last_use) :=
  ⟨(live_sets_within_recorded_ranges exACfg exAState 0 0).1 (by decide),
   (live_sets_within_recorded_ranges exACfg exAState 0 0).2 (by decide)⟩

/-- C6: after `mono_analyze_liveness` returns, every variable whose
variable-table entry has opcode `OP_ARG` has `range.first_use.abs_pos = 0`,
regardless of the state of its range before the final adjustment loop
(lines 639-643); `optimize_initlocals`, which runs afterwards, never
touches ranges. -/
theorem arg_first_use_is_zero (c : ACfg n nv) (st : AState n nv) (v : Fin nv)
    (h : c.varinfo_opcode v = OP_ARG) :
    ((post_fixpoint c st).range v).first_use = 0 := by
  unfold post_fixpoint
  rw [optimize_initlocals_range]
  exact argRangeAdjust_first_zero c _ v h

/-- Closed witness for `arg_first_use_is_zero`. -/
theorem arg_first_use_is_zero_witness :
    ((post_fixpoint exACfg exAState).range 0).first_use = 0 :=
  arg_first_use_is_zero exACfg exAState 0 (by decide)

/-! Lemmas about `optimize_initlocals`. -/

theorem initlocalsDead_some (c : ACfg n nv) (used : Finset Int)
    (live_out : Finset (Fin nv)) (vol : Fin nv → Bool) (ins : NewInst nv)
    (h : initlocalsDead c used live_out vol ins = true) :
    ∃ idx, c.ncfg.vreg_to_inst ins.dreg = some idx := by
  unfold initlocalsDead at h
  split at h
  · cases hv : c.ncfg.vreg_to_inst ins.dreg with
    | some idx => exact ⟨idx, rfl⟩
    | none => rw [hv] at h; exact absurd h (by simp)
  · exact absurd h (by simp)

theorem initlocalsPass2_fst (c : ACfg n nv) (used : Finset Int)
    (live_out : Finset (Fin nv)) (vol : Fin nv → Bool) :
    ∀ (code : List (NewInst nv)) (spill_costs : Fin nv → Int),
      (initlocalsPass2 c used live_out vol code spill_costs).1
        = code.map (fun ins =>
            if initlocalsDead c used live_out vol ins then { ins with opcode := OP_NOP }
            else ins)
  | [], _ => rfl
  | ins :: rest, spill_costs => by
      rw [initlocalsPass2]
      split
      · next hd =>
        simp only [List.map_cons, if_pos hd]
        exact congrArg _ (initlocalsPass2_fst c used live_out vol rest _)
      · next hd =>
        simp only [List.map_cons, if_neg hd]
        exact congrArg _ (initlocalsPass2_fst c used live_out vol rest _)

theorem initlocalsPass2_snd (c : ACfg n nv) (used : Finset Int)
    (live_out : Finset (Fin nv)) (vol : Fin nv → Bool) :
    ∀ (code : List (NewInst nv)) (spill_costs : Fin nv → Int) (v : Fin nv),
      (initlocalsPass2 c used live_out vol code spill_costs).2 v
        = spill_costs v - ((code.filter (fun ins =>
            initlocalsDead c used live_out vol ins
              && (c.ncfg.vreg_to_inst ins.dreg == some v))).length : Int)
  | [], spill_costs, v => by simp [initlocalsPass2]
  | ins :: rest, spill_costs, v => by
      rw [initlocalsPass2]
      split
      · next hd =>
        obtain ⟨idx, hidx⟩ := initlocalsDead_some c used live_out vol ins hd
        rw [hidx]
        dsimp only
        rw [initlocalsPass2_snd c used live_out vol rest _ v]
        rw [List.filter_cons]
        by_cases hiv : idx = v
        · subst hiv
          rw [if_pos (by rw [hd, hidx]; simp)]
          simp only [List.length_cons, Function.update_same]
          push_cast
          ring
        · have hne : ¬((initlocalsDead c used live_out vol ins
              && (c.ncfg.vreg_to_inst ins.dreg == some v)) = true) := by
            intro hcontra
            rw [Bool.and_eq_true] at hcontra
            have h2 := hcontra.2
            rw [hidx] at h2
            exact hiv (Option.some.inj (eq_of_beq h2))
          rw [if_neg hne]
          rw [Function.update_noteq (Ne.symm hiv)]
      · next hd =>
        dsimp only
        rw [initlocalsPass2_snd c used live_out vol rest _ v]
        rw [List.filter_cons]
        have hne : ¬((initlocalsDead c used live_out vol ins
            && (c.ncfg.vreg_to_inst ins.dreg == some v)) = true) := by
          intro hcontra
          rw [Bool.and_eq_true] at hcontra
          exact hd hcontra.1
        rw [if_neg hne]

theorem initlocalsDead_iff (c : ACfg n nv) (used : Finset Int)
    (live_out : Finset (Fin nv)) (vol : Fin nv → Bool) (ins : NewInst nv) :
    initlocalsDead c used live_out vol ins = true ↔
      ((c.ncfg.ins_info ins.opcode).dest = true ∧
        c.ncfg.is_store_membase ins.opcode = false ∧
        ∃ idx, c.ncfg.vreg_to_inst ins.dreg = some idx ∧
          ins.dreg ∉ used ∧ idx ∉ live_out ∧ some idx ≠ c.ret ∧
          vol idx = false ∧ c.indirect idx = false ∧
          (ins.opcode = OP_ICONST ∨ ins.opcode = OP_I8CONST ∨ ins.opcode = OP_R8CONST)) := by
  unfold initlocalsDead
  cases hv : c.ncfg.vreg_to_inst ins.dreg with
  | none =>
    constructor
    · intro h
      split at h
      · exact absurd h (by simp)
      · exact absurd h (by simp)
    · rintro ⟨-, -, idx, hidx, -⟩
      exact absurd hidx (by simp)
  | some idx =>
    constructor
    · intro h
      split at h
      · next hcond =>
        rw [Bool.and_eq_true, Bool.not_eq_true'] at hcond
        dsimp only at h
        split at h
        · next hguards =>
          refine ⟨hcond.1, hcond.2, idx, rfl, hguards.1, hguards.2.1, hguards.2.2.1,
            hguards.2.2.2.1, hguards.2.2.2.2, of_decide_eq_true h⟩
        · exact absurd h (by simp)
      · exact absurd h (by simp)
    · rintro ⟨hdest, hmem, idx', hidx', hused, hlive, hret, hvol, hind, hop⟩
      have hii : idx = idx' := Option.some.inj hidx'
      subst hii
      rw [if_pos (by rw [hdest, hmem]; rfl)]
      dsimp only
      rw [if_pos ⟨hused, hlive, hret, hvol, hind⟩]
      exact decide_eq_true hop

/-- C7: an instruction of the init-locals block (`cfg->bb_entry->next_bb`)
is replaced by a no-op (`NULLIFY_INS`, i.e. its opcode becomes `OP_NOP`,
nothing else of the instruction record changes) if and only if: its
destination slot is a register definition (`spec [MONO_INST_DEST] != ' '`)
that `get_vreg_to_inst` maps to a tracked variable, it is not a
store-membase, its destination vreg is not in the block's used-within-block
set, the destination variable is not in the block's `live_out` set, is not
the method's return variable, carries neither the volatile nor the
indirect flag, and its opcode is one of `OP_ICONST`/`OP_I8CONST`/
`OP_R8CONST`.  Each replacement decrements that variable's spill cost by
exactly 1, and the pass changes nothing else: other blocks' code, ranges,
volatile flags and live sets are untouched (in particular live ranges are
not narrowed). -/
theorem optimize_initlocals_spec (c : ACfg n nv) (st : AState n nv) :
    ((optimize_initlocals c st).code c.entry_next
        = (st.code c.entry_next).map (fun ins =>
            if initlocalsDead c (initlocalsUsed c (st.code c.entry_next))
                (st.live_out c.entry_next) st.vol ins
            then { ins with opcode := OP_NOP } else ins)) ∧
    (∀ b, b ≠ c.entry_next → (optimize_initlocals c st).code b = st.code b) ∧
    (∀ v, (optimize_initlocals c st).spill_costs v
        = st.spill_costs v - (((st.code c.entry_next).filter (fun ins =>
            initlocalsDead c (initlocalsUsed c (st.code c.entry_next))
              (st.live_out c.entry_next) st.vol ins
            && (c.ncfg.vreg_to_inst ins.dreg == some v))).length : Int)) ∧
    (optimize_initlocals c st).range = st.range ∧
    (optimize_initlocals c st).vol = st.vol ∧
    (optimize_initlocals c st).live_in = st.live_in ∧
    (optimize_initlocals c st).live_out = st.live_out ∧
    (∀ ins, initlocalsDead c (initlocalsUsed c (st.code c.entry_next))
        (st.live_out c.entry_next) st.vol ins = true ↔
      ((c.ncfg.ins_info ins.opcode).dest = true ∧
        c.ncfg.is_store_membase ins.opcode = false ∧
        ∃ idx, c.ncfg.vreg_to_inst ins.dreg = some idx ∧
          ins.dreg ∉ initlocalsUsed c (st.code c.entry_next) ∧
          idx ∉ st.live_out c.entry_next ∧ some idx ≠ c.ret ∧
          st.vol idx = false ∧ c.indirect idx = false ∧
          (ins.opcode = OP_ICONST ∨ ins.opcode = OP_I8CONST ∨ ins.opcode = OP_R8CONST))) := by
  refine ⟨?_, ?_, ?_, rfl, rfl, rfl, rfl, ?_⟩
  · show (Function.update st.code c.entry_next _) c.entry_next = _
    rw [Function.update_same]
    exact initlocalsPass2_fst c _ _ _ _ _
  · intro b hb
    show (Function.update st.code c.entry_next _) b = _
    rw [Function.update_noteq hb]
  · intro v
    exact initlocalsPass2_snd c _ _ _ _ _ v
  · intro ins
    exact initlocalsDead_iff c _ _ _ ins

/-- Closed witness for `optimize_initlocals_spec` (projection at the
concrete one-block configuration): the pass leaves ranges untouched
there, and with the implications instantiated on the empty init-locals
block. -/
theorem optimize_initlocals_spec_witness :
    (optimize_initlocals exACfg exAState).range = exAState.range ∧
    (optimize_initlocals exACfg exAState).code exACfg.entry_next
      = (exAState.code exACfg.entry_next).map (fun ins =>
          if initlocalsDead exACfg (initlocalsUsed exACfg (exAState.code exACfg.entry_next))
              (exAState.live_out exACfg.entry_next) exAState.vol ins
          then { ins with opcode := OP_NOP } else ins) :=
  ⟨(optimize_initlocals_spec exACfg exAState).2.2.2.1,
   (optimize_initlocals_spec exACfg exAState).1⟩

/-! Lemmas about the `visit_bb` flood of `handle_exception_clauses`. -/

theorem visitBBs_vis_mono (c : ACfg n nv) (code : Fin n → List (NewInst nv)) :
    ∀ (stack : List (Fin n)) (s : Finset (Fin n) × (Fin nv → Bool)),
      s.1 ⊆ (visitBBs c code stack s).1 := by
  intro stack s
  induction stack, s using visitBBs.induct c code with
  | case1 s => rw [visitBBs]
  | case2 b stack s hmem ih => rw [visitBBs, if_pos hmem]; exact ih
  | case3 b stack s hmem ih =>
    rw [visitBBs, if_neg hmem]
    exact (Finset.subset_insert _ _).trans ih

theorem visitBBs_sound (c : ACfg n nv) (code : Fin n → List (NewInst nv)) :
    ∀ (stack : List (Fin n)) (s : Finset (Fin n) × (Fin nv → Bool)) (x : Fin n),
      x ∈ (visitBBs c code stack s).1 → x ∈ s.1 ∨ ∃ r ∈ stack, Reaches c r x := by
  intro stack s
  induction stack, s using visitBBs.induct c code with
  | case1 s => intro x hx; rw [visitBBs] at hx; exact Or.inl hx
  | case2 b stack s hmem ih =>
    intro x hx
    rw [visitBBs, if_pos hmem] at hx
    rcases ih x hx with h | ⟨r, hr, hreach⟩
    · exact Or.inl h
    · exact Or.inr ⟨r, List.mem_cons_of_mem b hr, hreach⟩
  | case3 b stack s hmem ih =>
    intro x hx
    rw [visitBBs, if_neg hmem] at hx
    rcases ih x hx with h | ⟨r, hr, hreach⟩
    · rcases Finset.mem_insert.mp h with rfl | h
      · exact Or.inr ⟨x, List.mem_cons_self x stack, Relation.ReflTransGen.refl⟩
      · exact Or.inl h
    · rcases List.mem_append.mp hr with hr | hr
      · exact Or.inr ⟨b, List.mem_cons_self b stack,
          Relation.ReflTransGen.head hr hreach⟩
      · exact Or.inr ⟨r, List.mem_cons_of_mem b hr, hreach⟩

theorem visitBBs_closed (c : ACfg n nv) (code : Fin n → List (NewInst nv)) :
    ∀ (stack : List (Fin n)) (s : Finset (Fin n) × (Fin nv → Bool)),
      (∀ x ∈ s.1, ∀ t ∈ c.succ x, t ∈ s.1 ∨ t ∈ stack) →
      ∀ x ∈ (visitBBs c code stack s).1, ∀ t ∈ c.succ x,
        t ∈ (visitBBs c code stack s).1 := by
  intro stack s
  induction stack, s using visitBBs.induct c code with
  | case1 s =>
    intro hinv x hx t ht
    rw [visitBBs] at hx ⊢
    rcases hinv x hx t ht with h | h
    · exact h
    · exact absurd h (List.not_mem_nil t)
  | case2 b stack s hmem ih =>
    intro hinv
    rw [visitBBs, if_pos hmem]
    refine ih ?_
    intro x hx t ht
    rcases hinv x hx t ht with h | h
    · exact Or.inl h
    · rcases List.mem_cons.mp h with rfl | h
      · exact Or.inl hmem
      · exact Or.inr h
  | case3 b stack s hmem ih =>
    intro hinv
    rw [visitBBs, if_neg hmem]
    refine ih ?_
    intro x hx t ht
    rcases Finset.mem_insert.mp hx with rfl | hx
    · exact Or.inr (List.mem_append.mpr (Or.inl ht))
    · rcases hinv x hx t ht with h | h
      · exact Or.inl (Finset.mem_insert_of_mem h)
      · rcases List.mem_cons.mp h with rfl | h
        · exact Or.inl (Finset.mem_insert_self t s.1)
        · exact Or.inr (List.mem_append.mpr (Or.inr h))

theorem visitBBs_stack_visited (c : ACfg n nv) (code : Fin n → List (NewInst nv)) :
    ∀ (stack : List (Fin n)) (s : Finset (Fin n) × (Fin nv → Bool)),
      ∀ r ∈ stack, r ∈ (visitBBs c code stack s).1 := by
  intro stack s
  induction stack, s using visitBBs.induct c code with
  | case1 s => intro r hr; exact absurd hr (List.not_mem_nil r)
  | case2 b stack s hmem ih =>
    intro r hr
    rw [visitBBs, if_pos hmem]
    rcases List.mem_cons.mp hr with rfl | hr
    · exact visitBBs_vis_mono c code stack s hmem
    · exact ih r hr
  | case3 b stack s hmem ih =>
    intro r hr
    rw [visitBBs, if_neg hmem]
    rcases List.mem_cons.mp hr with rfl | hr
    · exact visitBBs_vis_mono c code _ _ (Finset.mem_insert_self r s.1)
    · exact ih r (List.mem_append.mpr (Or.inr hr))

theorem visitBBs_complete (c : ACfg n nv) (code : Fin n → List (NewInst nv))
    (stack : List (Fin n)) (s : Finset (Fin n) × (Fin nv → Bool))
    (hinv : ∀ x ∈ s.1, ∀ t ∈ c.succ x, t ∈ s.1 ∨ t ∈ stack)
    (r x : Fin n) (hr : r ∈ stack) (hreach : Reaches c r x) :
    x ∈ (visitBBs c code stack s).1 := by
  have hclosed := visitBBs_closed c code stack s hinv
  induction hreach with
  | refl => exact visitBBs_stack_visited c code stack s r hr
  | tail hab hbc ih => exact hclosed _ ih _ hbc

theorem visitBBs_vol (c : ACfg n nv) (code : Fin n → List (NewInst nv)) :
    ∀ (stack : List (Fin n)) (s : Finset (Fin n) × (Fin nv → Bool)) (v : Fin nv),
      ((visitBBs c code stack s).2 v = true ↔
        s.2 v = true ∨ ∃ b, b ∈ (visitBBs c code stack s).1 ∧ b ∉ s.1 ∧
          v ∈ blockRefVars c code b) := by
  intro stack s
  induction stack, s using visitBBs.induct c code with
  | case1 s =>
    intro v
    rw [visitBBs]
    constructor
    · exact Or.inl
    · rintro (h | ⟨b, hb, hnb, -⟩)
      · exact h
      · exact absurd hb hnb
  | case2 b stack s hmem ih =>
    intro v
    rw [visitBBs, if_pos hmem]
    exact ih v
  | case3 b stack s hmem ih =>
    intro v
    rw [visitBBs, if_neg hmem]
    rw [ih v]
    have hbvis : b ∈ (visitBBs c code (c.succ b ++ stack)
        (insert b s.1, markBlockVars c code b s.2)).1 :=
      visitBBs_vis_mono c code _ _ (Finset.mem_insert_self b s.1)
    constructor
    · rintro (hmark | ⟨b', hb', hnb', hrv⟩)
      · simp only [markBlockVars, Bool.or_eq_true] at hmark
        rcases hmark with h | h
        · exact Or.inl h
        · exact Or.inr ⟨b, hbvis, hmem, of_decide_eq_true h⟩
      · refine Or.inr ⟨b', hb', ?_, hrv⟩
        intro hc
        exact hnb' (Finset.mem_insert_of_mem hc)
    · rintro (h | ⟨b', hb', hnb', hrv⟩)
      · exact Or.inl (by simp only [markBlockVars, Bool.or_eq_true]; exact Or.inl h)
      · by_cases hbb : b' = b
        · subst hbb
          exact Or.inl (by
            simp only [markBlockVars, Bool.or_eq_true]
            exact Or.inr (decide_eq_true hrv))
        · exact Or.inr ⟨b', hb', fun hc => absurd (Finset.mem_insert.mp hc)
            (by rintro (h | h); exact hbb h; exact hnb' h), hrv⟩

/-! Lemmas about the per-root fold of `handle_exception_clauses`. -/

theorem hecFold_vis_mono (c : ACfg n nv) (code : Fin n → List (NewInst nv)) :
    ∀ (roots : List (Fin n)) (s : Finset (Fin n) × (Fin nv → Bool)),
      s.1 ⊆ (roots.foldl (fun s b => visitBBs c code [b] s) s).1 := by
  intro roots
  induction roots with
  | nil => intro s; exact subset_rfl
  | cons rt roots ih =>
    intro s
    simp only [List.foldl_cons]
    exact (visitBBs_vis_mono c code [rt] s).trans (ih _)

theorem hecFold_closed (c : ACfg n nv) (code : Fin n → List (NewInst nv)) :
    ∀ (roots : List (Fin n)) (s : Finset (Fin n) × (Fin nv → Bool)),
      (∀ x ∈ s.1, ∀ t ∈ c.succ x, t ∈ s.1) →
      ∀ x ∈ (roots.foldl (fun s b => visitBBs c code [b] s) s).1, ∀ t ∈ c.succ x,
        t ∈ (roots.foldl (fun s b => visitBBs c code [b] s) s).1 := by
  intro roots
  induction roots with
  | nil => intro s h; exact h
  | cons rt roots ih =>
    intro s hcl
    simp only [List.foldl_cons]
    refine ih _ ?_
    exact visitBBs_closed c code [rt] s (fun x hx t ht => Or.inl (hcl x hx t ht))

theorem hecFold_vis (c : ACfg n nv) (code : Fin n → List (NewInst nv)) :
    ∀ (roots : List (Fin n)) (s : Finset (Fin n) × (Fin nv → Bool)),
      (∀ x ∈ s.1, ∀ t ∈ c.succ x, t ∈ s.1) →
      ∀ x, (x ∈ (roots.foldl (fun s b => visitBBs c code [b] s) s).1 ↔
        x ∈ s.1 ∨ ∃ rt ∈ roots, Reaches c rt x) := by
  intro roots
  induction roots with
  | nil =>
    intro s hcl x
    simp only [List.foldl_nil]
    constructor
    · exact Or.inl
    · rintro (h | ⟨rt, hrt, -⟩)
      · exact h
      · exact absurd hrt (List.not_mem_nil rt)
  | cons rt roots ih =>
    intro s hcl x
    simp only [List.foldl_cons]
    have hcl1 : ∀ x ∈ (visitBBs c code [rt] s).1, ∀ t ∈ c.succ x,
        t ∈ (visitBBs c code [rt] s).1 :=
      visitBBs_closed c code [rt] s (fun x hx t ht => Or.inl (hcl x hx t ht))
    rw [ih _ hcl1 x]
    constructor
    · rintro (h | ⟨rt', hrt', hreach⟩)
      · rcases visitBBs_sound c code [rt] s x h with h | ⟨r, hr, hreach⟩
        · exact Or.inl h
        · rcases List.mem_cons.mp hr with rfl | hr
          · exact Or.inr ⟨r, List.mem_cons_self r roots, hreach⟩
          · exact absurd hr (List.not_mem_nil r)
      · exact Or.inr ⟨rt', List.mem_cons_of_mem rt hrt', hreach⟩
    · rintro (h | ⟨rt', hrt', hreach⟩)
      · exact Or.inl (visitBBs_vis_mono c code [rt] s h)
      · rcases List.mem_cons.mp hrt' with rfl | hrt'
        · exact Or.inl (visitBBs_complete c code [rt'] s
            (fun x hx t ht => Or.inl (hcl x hx t ht)) rt' x
            (List.mem_cons_self rt' []) hreach)
        · exact Or.inr ⟨rt', hrt', hreach⟩

theorem hecFold_vol (c : ACfg n nv) (code : Fin n → List (NewInst nv)) :
    ∀ (roots : List (Fin n)) (s : Finset (Fin n) × (Fin nv → Bool)) (v : Fin nv),
      ((roots.foldl (fun s b => visitBBs c code [b] s) s).2 v = true ↔
        s.2 v = true ∨ ∃ b, b ∈ (roots.foldl (fun s b => visitBBs c code [b] s) s).1 ∧
          b ∉ s.1 ∧ v ∈ blockRefVars c code b) := by
  intro roots
  induction roots with
  | nil =>
    intro s v
    simp only [List.foldl_nil]
    constructor
    · exact Or.inl
    · rintro (h | ⟨b, hb, hnb, -⟩)
      · exact h
      · exact absurd hb hnb
  | cons rt roots ih =>
    intro s v
    simp only [List.foldl_cons]
    rw [ih _ v]
    rw [visitBBs_vol c code [rt] s v]
    have hsub1 : s.1 ⊆ (visitBBs c code [rt] s).1 := visitBBs_vis_mono c code [rt] s
    have hsub2 : (visitBBs c code [rt] s).1 ⊆
        (roots.foldl (fun s b => visitBBs c code [b] s) (visitBBs c code [rt] s)).1 :=
      hecFold_vis_mono c code roots _
    constructor
    · rintro ((h | ⟨b, hb, hnb, hrv⟩) | ⟨b, hb, hnb, hrv⟩)
      · exact Or.inl h
      · exact Or.inr ⟨b, hsub2 hb, hnb, hrv⟩
      · exact Or.inr ⟨b, hb, fun hc => hnb (hsub1 hc), hrv⟩
    · rintro (h | ⟨b, hb, hnb, hrv⟩)
      · exact Or.inl (Or.inl h)
      · by_cases hmid : b ∈ (visitBBs c code [rt] s).1
        · exact Or.inl (Or.inr ⟨b, hmid, hnb, hrv⟩)
        · exact Or.inr ⟨b, hb, hmid, hrv⟩

/-- C5: `handle_exception_clauses` marks volatile exactly the variables
referenced (as defined by `blockRefVars`: destination/source operands in
the new-IR walk, every `update_volatile`-collected variable - including
aliasing-reported ones - in the old-IR walk) in some block
forward-reachable via successor edges from a flood root, on top of the
flags already set; the flood roots are exactly the blocks whose
exception-region tag is set (`region != -1`) and which are not in a try
body.  In particular a variable referenced only in blocks unreachable
from every root is not marked by this pass. -/
theorem exception_volatility_iff (c : ACfg n nv) (st : AState n nv) (v : Fin nv) :
    ((handle_exception_clauses c st).vol v = true ↔
      (st.vol v = true ∨
        ∃ root b, root ∈ hecRoots c ∧ Reaches c root b ∧
          v ∈ blockRefVars c st.code b)) ∧
    (∀ r : Fin n, r ∈ hecRoots c ↔ (c.region r ≠ -1 ∧ c.in_try_region r = false)) := by
  constructor
  · show ((hecRoots c).foldl (fun s b => visitBBs c st.code [b] s) (∅, st.vol)).2 v
        = true ↔ _
    rw [hecFold_vol c st.code (hecRoots c) (∅, st.vol) v]
    have hvis := hecFold_vis c st.code (hecRoots c) (∅, st.vol)
      (fun x hx => absurd hx (Finset.not_mem_empty x))
    constructor
    · rintro (h | ⟨b, hb, -, hrv⟩)
      · exact Or.inl h
      · rcases (hvis b).mp hb with h | ⟨rt, hrt, hreach⟩
        · exact absurd h (Finset.not_mem_empty b)
        · exact Or.inr ⟨rt, b, hrt, hreach, hrv⟩
    · rintro (h | ⟨root, b, hroot, hreach, hrv⟩)
      · exact Or.inl h
      · exact Or.inr ⟨b, (hvis b).mpr (Or.inr ⟨root, hroot, hreach⟩),
          Finset.not_mem_empty b, hrv⟩
  · intro r
    unfold hecRoots
    rw [List.mem_filter]
    simp [List.mem_finRange, Bool.not_eq_true', Bool.or_eq_false_iff, beq_eq_false_iff_ne]

/-- C9: calling `mono_analyze_liveness` when the `MONO_COMP_LIVENESS` bit
of `cfg->comp_done` is clear succeeds and sets the bit - it does so before
the `max_vars == 0` early return, so even a zero-tracked-variables no-op
run leaves the bit set (and returns early, `proceeds = false`); any second
invocation on the resulting `comp_done`, with any `max_vars`, fails the
`g_assert` and aborts rather than re-running. -/
theorem liveness_entry_contract (comp_done : Finset CompDoneFlag)
    (max_vars : Nat) (hclear : CompDoneFlag.liveness ∉ comp_done) :
    (∃ comp_done' proceeds,
        livenessEntry comp_done max_vars = some (comp_done', proceeds) ∧
        CompDoneFlag.liveness ∈ comp_done' ∧
        (max_vars = 0 → proceeds = false) ∧
        (∀ max_vars₂, livenessEntry comp_done' max_vars₂ = none)) := by
  refine ⟨insert CompDoneFlag.liveness comp_done,
    if max_vars = 0 then false else true, ?_, ?_, ?_, ?_⟩
  · unfold livenessEntry
    rw [if_neg hclear]
    by_cases h0 : max_vars = 0 <;> simp [h0]
  · exact Finset.mem_insert_self _ _
  · intro h0; simp [h0]
  · intro mv2
    unfold livenessEntry
    rw [if_pos (Finset.mem_insert_self _ _)]

/-- Closed witness for `liveness_entry_contract`: a first call on an empty
`comp_done` with zero tracked variables, followed by a second call. -/
theorem liveness_entry_contract_witness :
    ∃ comp_done' proceeds,
      livenessEntry (∅ : Finset CompDoneFlag) 0 = some (comp_done', proceeds) ∧
      CompDoneFlag.liveness ∈ comp_done' ∧
      (0 = 0 → proceeds = false) ∧
      (∀ max_vars₂, livenessEntry comp_done' max_vars₂ = none) :=
  liveness_entry_contract ∅ 0 (by decide)

/-! Lemmas about the successor loop of the worklist solver.  Throughout,
`b` is the popped block and the fold runs over an arbitrary successor
list. -/

theorem liveInOf_mono (c : SCfg n nv) (st st' : SSt n nv) (x : Fin n)
    (h : st.live_out x ⊆ st'.live_out x) : liveInOf c st x ⊆ liveInOf c st' x := by
  unfold liveInOf
  intro v hv
  rcases Finset.mem_union.mp hv with hv | hv
  · rcases Finset.mem_sdiff.mp hv with ⟨h1, h2⟩
    exact Finset.mem_union_left _ (Finset.mem_sdiff.mpr ⟨h h1, h2⟩)
  · exact Finset.mem_union_right _ hv

theorem allocLiveIn_out (c : SCfg n nv) (st : SSt n nv) (o x : Fin n) :
    (allocLiveIn c st o).live_out x = st.live_out x := by
  unfold allocLiveIn
  split <;> rfl

theorem allocLiveIn_in_self (c : SCfg n nv) (st : SSt n nv) (o : Fin n) :
    (allocLiveIn c st o).live_in o = some (liveInF c st o) := by
  unfold allocLiveIn
  split
  · next h =>
    cases hv : st.live_in o with
    | some x => rw [liveInF, hv, Option.getD_some]
    | none => rw [hv] at h; exact absurd h (by simp)
  · next h =>
    dsimp only
    rw [Function.update_same, liveInF]
    cases hv : st.live_in o with
    | some x => rw [hv] at h; simp at h
    | none => rw [Option.getD_none]

theorem allocLiveIn_in_pres (c : SCfg n nv) (st : SSt n nv) (o x : Fin n)
    (h : (st.live_in x).isSome = true) :
    (allocLiveIn c st o).live_in x = st.live_in x := by
  unfold allocLiveIn
  split
  · rfl
  · next ho =>
    by_cases hxo : x = o
    · subst hxo
      exact absurd h (by simpa using ho)
    · dsimp only
      rw [Function.update_noteq hxo]

theorem allocLiveIn_in_ne (c : SCfg n nv) (st : SSt n nv) (o x : Fin n) (h : x ≠ o) :
    (allocLiveIn c st o).live_in x = st.live_in x := by
  unfold allocLiveIn
  split
  · rfl
  · show Function.update st.live_in o (some (liveInOf c st o)) x = st.live_in x
    rw [Function.update_noteq h]

theorem succStep_out_ne (c : SCfg n nv) (b : Fin n) (st : SSt n nv) (o x : Fin n)
    (h : x ≠ b) : (succStep c b st o).live_out x = st.live_out x := by
  unfold succStep unionLiveOut
  dsimp only
  rw [Function.update_noteq h]
  exact allocLiveIn_out c st o x

theorem succStep_out_mono (c : SCfg n nv) (b : Fin n) (st : SSt n nv) (o x : Fin n) :
    st.live_out x ⊆ (succStep c b st o).live_out x := by
  by_cases h : x = b
  · subst h
    unfold succStep unionLiveOut
    dsimp only
    rw [Function.update_same, allocLiveIn_out]
    exact Finset.subset_union_left
  · rw [succStep_out_ne c b st o x h]

theorem succStep_wl (c : SCfg n nv) (b : Fin n) (st : SSt n nv) (o : Fin n) :
    (succStep c b st o).worklist = st.worklist ∧
      (succStep c b st o).in_worklist = st.in_worklist := by
  unfold succStep unionLiveOut allocLiveIn
  split <;> exact ⟨rfl, rfl⟩

theorem succStep_in_pres (c : SCfg n nv) (b : Fin n) (st : SSt n nv) (o x : Fin n)
    (h : (st.live_in x).isSome = true) :
    (succStep c b st o).live_in x = st.live_in x :=
  allocLiveIn_in_pres c st o x h

theorem succStep_in_ne (c : SCfg n nv) (b : Fin n) (st : SSt n nv) (o x : Fin n)
    (h : x ≠ o) : (succStep c b st o).live_in x = st.live_in x :=
  allocLiveIn_in_ne c st o x h

theorem succStep_in_self (c : SCfg n nv) (b : Fin n) (st : SSt n nv) (o : Fin n) :
    (succStep c b st o).live_in o = some (liveInF c st o) :=
  allocLiveIn_in_self c st o

theorem succStep_liveInF_ne (c : SCfg n nv) (b : Fin n) (st : SSt n nv) (o x : Fin n)
    (hxb : x ≠ b) : liveInF c (succStep c b st o) x = liveInF c st x := by
  cases hv : st.live_in x with
  | some y =>
    simp only [liveInF, succStep_in_pres c b st o x (by rw [hv]; rfl), hv,
      Option.getD_some]
  | none =>
    by_cases hxo : x = o
    · subst hxo
      simp only [liveInF, succStep_in_self c b st x, hv, Option.getD_some,
        Option.getD_none]
    · simp only [liveInF, succStep_in_ne c b st o x hxo, hv, Option.getD_none]
      unfold liveInOf
      rw [succStep_out_ne c b st o x hxb]

theorem succStep_liveInF_mono (c : SCfg n nv) (b : Fin n) (st : SSt n nv) (o x : Fin n) :
    liveInF c st x ⊆ liveInF c (succStep c b st o) x := by
  cases hv : st.live_in x with
  | some y =>
    simp only [liveInF, succStep_in_pres c b st o x (by rw [hv]; rfl), hv,
      Option.getD_some]
    exact subset_rfl
  | none =>
    by_cases hxo : x = o
    · subst hxo
      simp only [liveInF, succStep_in_self c b st x, hv, Option.getD_some,
        Option.getD_none]
      exact subset_rfl
    · simp only [liveInF, succStep_in_ne c b st o x hxo, hv, Option.getD_none]
      exact liveInOf_mono c st _ x (succStep_out_mono c b st o x)

theorem succStep_storedUB (c : SCfg n nv) (b : Fin n) (st : SSt n nv) (o : Fin n)
    (h : ∀ x y, st.live_in x = some y → y ⊆ liveInOf c st x) :
    ∀ x y, (succStep c b st o).live_in x = some y → y ⊆ liveInOf c (succStep c b st o) x := by
  intro x y hxy
  by_cases hxo : x = o
  · subst hxo
    rw [succStep_in_self c b st x] at hxy
    have hy : y = liveInF c st x := (Option.some.inj hxy).symm
    subst hy
    cases hv : st.live_in x with
    | some z =>
      rw [liveInF, hv, Option.getD_some]
      exact (h x z hv).trans (liveInOf_mono c st _ x (succStep_out_mono c b st x x))
    | none =>
      rw [liveInF, hv, Option.getD_none]
      exact liveInOf_mono c st _ x (succStep_out_mono c b st x x)
  · rw [succStep_in_ne c b st o x hxo] at hxy
    exact (h x y hxy).trans (liveInOf_mono c st _ x (succStep_out_mono c b st o x))

theorem succFold_out_ne (c : SCfg n nv) (b : Fin n) :
    ∀ (l : List (Fin n)) (st : SSt n nv) (x : Fin n), x ≠ b →
      (l.foldl (succStep c b) st).live_out x = st.live_out x
  | [], _, _, _ => rfl
  | o :: l, st, x, h => by
      rw [List.foldl_cons, succFold_out_ne c b l _ x h, succStep_out_ne c b st o x h]

theorem succFold_out_mono (c : SCfg n nv) (b : Fin n) :
    ∀ (l : List (Fin n)) (st : SSt n nv) (x : Fin n),
      st.live_out x ⊆ (l.foldl (succStep c b) st).live_out x
  | [], _, _ => subset_rfl
  | o :: l, st, x => by
      rw [List.foldl_cons]
      exact (succStep_out_mono c b st o x).trans (succFold_out_mono c b l _ x)

theorem succFold_in_pres (c : SCfg n nv) (b : Fin n) :
    ∀ (l : List (Fin n)) (st : SSt n nv) (x : Fin n),
      (st.live_in x).isSome = true →
      (l.foldl (succStep c b) st).live_in x = st.live_in x
  | [], _, _, _ => rfl
  | o :: l, st, x, h => by
      rw [List.foldl_cons, succFold_in_pres c b l _ x
        (by rw [succStep_in_pres c b st o x h]; exact h),
        succStep_in_pres c b st o x h]

theorem succFold_liveInF_ne (c : SCfg n nv) (b : Fin n) :
    ∀ (l : List (Fin n)) (st : SSt n nv) (x : Fin n), x ≠ b →
      liveInF c (l.foldl (succStep c b) st) x = liveInF c st x
  | [], _, _, _ => rfl
  | o :: l, st, x, h => by
      rw [List.foldl_cons, succFold_liveInF_ne c b l _ x h,
        succStep_liveInF_ne c b st o x h]

theorem succFold_liveInF_mono (c : SCfg n nv) (b : Fin n) :
    ∀ (l : List (Fin n)) (st : SSt n nv) (x : Fin n),
      liveInF c st x ⊆ liveInF c (l.foldl (succStep c b) st) x
  | [], _, _ => subset_rfl
  | o :: l, st, x => by
      rw [List.foldl_cons]
      exact (succStep_liveInF_mono c b st o x).trans (succFold_liveInF_mono c b l _ x)

theorem succFold_wl (c : SCfg n nv) (b : Fin n) :
    ∀ (l : List (Fin n)) (st : SSt n nv),
      (l.foldl (succStep c b) st).worklist = st.worklist ∧
        (l.foldl (succStep c b) st).in_worklist = st.in_worklist
  | [], _ => ⟨rfl, rfl⟩
  | o :: l, st => by
      rw [List.foldl_cons]
      have h1 := succStep_wl c b st o
      have h2 := succFold_wl c b l (succStep c b st o)
      exact ⟨h2.1.trans h1.1, h2.2.trans h1.2⟩

theorem succFold_in_isSome (c : SCfg n nv) (b : Fin n) (l : List (Fin n))
    (st : SSt n nv) (x : Fin n) (h : (st.live_in x).isSome = true) :
    ((l.foldl (succStep c b) st).live_in x).isSome = true := by
  rw [succFold_in_pres c b l st x h]
  exact h

theorem succFold_liveInF_stored (c : SCfg n nv) (b : Fin n) (l : List (Fin n))
    (st : SSt n nv) (x : Fin n) (h : (st.live_in x).isSome = true) :
    liveInF c (l.foldl (succStep c b) st) x = liveInF c st x := by
  rw [liveInF, liveInF, succFold_in_pres c b l st x h]
  cases hv : st.live_in x with
  | some y => rw [Option.getD_some, Option.getD_some]
  | none => rw [hv] at h; exact absurd h (by simp)

theorem succFold_absorb (c : SCfg n nv) (b : Fin n) :
    ∀ (l : List (Fin n)) (st : SSt n nv), ∀ o ∈ l,
      liveInF c (l.foldl (succStep c b) st) o ⊆ (l.foldl (succStep c b) st).live_out b
  | [], _, o, ho => absurd ho (List.not_mem_nil o)
  | o' :: l, st, o, ho => by
      rw [List.foldl_cons]
      rcases List.mem_cons.mp ho with rfl | ho
      · have h1 : liveInF c (succStep c b st o) o ⊆ (succStep c b st o).live_out b := by
          rw [liveInF, succStep_in_self c b st o, Option.getD_some]
          show liveInF c st o ⊆ (unionLiveOut (allocLiveIn c st o) b o).live_out b
          unfold unionLiveOut
          dsimp only
          rw [Function.update_same, allocLiveIn_in_self c st o, Option.getD_some]
          exact Finset.subset_union_right
        have hstored : ((succStep c b st o).live_in o).isSome = true := by
          rw [succStep_in_self c b st o]
          rfl
        rw [succFold_liveInF_stored c b l _ o hstored]
        exact h1.trans (succFold_out_mono c b l _ b)
      · exact succFold_absorb c b l _ o ho

theorem succFold_out_added (c : SCfg n nv) (b : Fin n) :
    ∀ (l : List (Fin n)) (st : SSt n nv) (v : Fin nv),
      v ∈ (l.foldl (succStep c b) st).live_out b →
      v ∈ st.live_out b ∨ ∃ o ∈ l, v ∈ liveInF c (l.foldl (succStep c b) st) o
  | [], _, _, hv => Or.inl hv
  | o :: l, st, v, hv => by
      rw [List.foldl_cons] at hv
      have hstep : (succStep c b st o).live_out b = st.live_out b ∪ liveInF c st o := by
        unfold succStep unionLiveOut
        dsimp only
        rw [Function.update_same, allocLiveIn_out, allocLiveIn_in_self, Option.getD_some]
      rcases succFold_out_added c b l _ v hv with h | ⟨o', ho', hmem⟩
      · rw [hstep] at h
        rcases Finset.mem_union.mp h with h | h
        · exact Or.inl h
        · refine Or.inr ⟨o, List.mem_cons_self o l, ?_⟩
          rw [List.foldl_cons]
          have hstored : ((succStep c b st o).live_in o).isSome = true := by
            rw [succStep_in_self c b st o]
            rfl
          rw [succFold_liveInF_stored c b l _ o hstored]
          rw [liveInF, succStep_in_self c b st o, Option.getD_some]
          exact h
      · exact Or.inr ⟨o', List.mem_cons_of_mem o ho', by rw [List.foldl_cons]; exact hmem⟩

theorem succFold_storedUB (c : SCfg n nv) (b : Fin n) :
    ∀ (l : List (Fin n)) (st : SSt n nv),
      (∀ x y, st.live_in x = some y → y ⊆ liveInOf c st x) →
      ∀ x y, (l.foldl (succStep c b) st).live_in x = some y →
        y ⊆ liveInOf c (l.foldl (succStep c b) st) x
  | [], _, h => h
  | o :: l, st, h => by
      rw [List.foldl_cons]
      exact succFold_storedUB c b l _ (succStep_storedUB c b st o h)

theorem succFold_stored_eq_ne (c : SCfg n nv) (b : Fin n) (l : List (Fin n))
    (st : SSt n nv) (x : Fin n) (hxb : x ≠ b)
    (hstored : ∀ y, st.live_in x = some y → y = liveInOf c st x) :
    ∀ y, (l.foldl (succStep c b) st).live_in x = some y →
      y = liveInOf c (l.foldl (succStep c b) st) x := by
  intro y hy
  have hF := succFold_liveInF_ne c b l st x hxb
  have hout := succFold_out_ne c b l st x hxb
  have hyF : y = liveInF c (l.foldl (succStep c b) st) x := by
    rw [liveInF, hy, Option.getD_some]
  have hOf : liveInOf c (l.foldl (succStep c b) st) x = liveInOf c st x := by
    unfold liveInOf
    rw [hout]
  rw [hyF, hF, hOf]
  cases hv : st.live_in x with
  | some z =>
    rw [liveInF, hv, Option.getD_some]
    exact hstored z hv
  | none => rw [liveInF, hv, Option.getD_none]

/-! Lemmas about `recomputeLiveIn` and the predecessor pushes. -/

theorem liveInF_congr (c : SCfg n nv) (st st' : SSt n nv)
    (h1 : st.live_in = st'.live_in) (h2 : st.live_out = st'.live_out) (x : Fin n) :
    liveInF c st x = liveInF c st' x := by
  unfold liveInF liveInOf
  rw [h1, h2]

theorem recompute_out (c : SCfg n nv) (st : SSt n nv) (b x : Fin n) :
    (recomputeLiveIn c st b).live_out x = st.live_out x := rfl

theorem recompute_in_self (c : SCfg n nv) (st : SSt n nv) (b : Fin n) :
    (recomputeLiveIn c st b).live_in b = some (liveInOf c st b) := by
  unfold recomputeLiveIn
  dsimp only
  rw [Function.update_same]

theorem recompute_in_ne (c : SCfg n nv) (st : SSt n nv) (b x : Fin n) (h : x ≠ b) :
    (recomputeLiveIn c st b).live_in x = st.live_in x := by
  unfold recomputeLiveIn
  dsimp only
  rw [Function.update_noteq h]

theorem recompute_liveInF_ne (c : SCfg n nv) (st : SSt n nv) (b x : Fin n) (h : x ≠ b) :
    liveInF c (recomputeLiveIn c st b) x = liveInF c st x := by
  rw [liveInF, liveInF, recompute_in_ne c st b x h]
  unfold liveInOf
  rw [recompute_out]

theorem recompute_liveInF_self (c : SCfg n nv) (st : SSt n nv) (b : Fin n) :
    liveInF c (recomputeLiveIn c st b) b = liveInOf c st b := by
  rw [liveInF, recompute_in_self c st b, Option.getD_some]

theorem recompute_liveInF_mono (c : SCfg n nv) (st : SSt n nv) (b : Fin n)
    (hUB : ∀ x y, st.live_in x = some y → y ⊆ liveInOf c st x) (x : Fin n) :
    liveInF c st x ⊆ liveInF c (recomputeLiveIn c st b) x := by
  by_cases hxb : x = b
  · subst hxb
    rw [recompute_liveInF_self c st x]
    cases hv : st.live_in x with
    | some y =>
      rw [liveInF, hv, Option.getD_some]
      exact hUB x y hv
    | none =>
      rw [liveInF, hv, Option.getD_none]
  · rw [recompute_liveInF_ne c st b x hxb]

theorem recompute_wl (c : SCfg n nv) (st : SSt n nv) (b : Fin n) :
    (recomputeLiveIn c st b).worklist = st.worklist ∧
      (recomputeLiveIn c st b).in_worklist = st.in_worklist := ⟨rfl, rfl⟩

theorem pushPred_live (st : SSt n nv) (p : Fin n) :
    (pushPred st p).live_in = st.live_in ∧ (pushPred st p).live_out = st.live_out := by
  unfold pushPred
  split <;> exact ⟨rfl, rfl⟩

theorem pushPreds_live (c : SCfg n nv) (b : Fin n) :
    ∀ (l : List (Fin n)) (st : SSt n nv),
      (l.foldl pushPred st).live_in = st.live_in ∧
        (l.foldl pushPred st).live_out = st.live_out
  | [], _ => ⟨rfl, rfl⟩
  | p :: l, st => by
      rw [List.foldl_cons]
      have h1 := pushPred_live st p
      have h2 := pushPreds_live c b l (pushPred st p)
      exact ⟨h2.1.trans h1.1, h2.2.trans h1.2⟩

theorem pushPred_winv (st : SSt n nv) (p : Fin n) (h : WorklistInv st) :
    WorklistInv (pushPred st p) := by
  obtain ⟨hnd, hiff⟩ := h
  unfold pushPred
  split
  · exact ⟨hnd, hiff⟩
  · next hflag =>
    constructor
    · refine List.nodup_cons.mpr ⟨?_, hnd⟩
      intro hmem
      rw [(hiff p).mp hmem] at hflag
      exact hflag rfl
    · intro x
      dsimp only
      by_cases hxp : x = p
      · subst hxp
        rw [Function.update_same]
        simp
      · rw [Function.update_noteq hxp]
        rw [List.mem_cons]
        constructor
        · rintro (rfl | hmem)
          · exact absurd rfl hxp
          · exact (hiff x).mp hmem
        · intro hflag2
          exact Or.inr ((hiff x).mpr hflag2)

theorem pushPreds_winv (c : SCfg n nv) (b : Fin n) :
    ∀ (l : List (Fin n)) (st : SSt n nv), WorklistInv st →
      WorklistInv (l.foldl pushPred st)
  | [], _, h => h
  | p :: l, st, h => by
      rw [List.foldl_cons]
      exact pushPreds_winv c b l _ (pushPred_winv st p h)

theorem pushPred_flag_mono (st : SSt n nv) (p x : Fin n)
    (h : st.in_worklist x = true) : (pushPred st p).in_worklist x = true := by
  unfold pushPred
  split
  · exact h
  · dsimp only
    by_cases hxp : x = p
    · subst hxp
      rw [Function.update_same]
    · rw [Function.update_noteq hxp]
      exact h

theorem pushPred_flag_self (st : SSt n nv) (p : Fin n) :
    (pushPred st p).in_worklist p = true := by
  unfold pushPred
  split
  · next h => exact h
  · dsimp only
    rw [Function.update_same]

theorem pushPreds_flag_mono (l : List (Fin n)) :
    ∀ (st : SSt n nv) (x : Fin n), st.in_worklist x = true →
      (l.foldl pushPred st).in_worklist x = true := by
  induction l with
  | nil => intro st x h; exact h
  | cons p l ih =>
    intro st x h
    rw [List.foldl_cons]
    exact ih _ x (pushPred_flag_mono st p x h)

theorem pushPreds_flag_on (l : List (Fin n)) :
    ∀ (st : SSt n nv) (p : Fin n), p ∈ l → (l.foldl pushPred st).in_worklist p = true := by
  induction l with
  | nil => intro st p hp; exact absurd hp (List.not_mem_nil p)
  | cons q l ih =>
    intro st p hp
    rw [List.foldl_cons]
    rcases List.mem_cons.mp hp with rfl | hp
    · exact pushPreds_flag_mono l _ p (pushPred_flag_self st p)
    · exact ih _ p hp

theorem pushPreds_flag_false (l : List (Fin n)) (st : SSt n nv) (x : Fin n)
    (h : (l.foldl pushPred st).in_worklist x = false) : st.in_worklist x = false := by
  cases hv : st.in_worklist x with
  | false => rfl
  | true => rw [pushPreds_flag_mono l st x hv] at h; exact absurd h (by simp)

theorem measure_lt_helper (M2 M0 len2 len0 n : Nat) (hM : M2 < M0) (hlen : len2 ≤ n) :
    M2 * (n + 1) + len2 < M0 * (n + 1) + len0 := by
  have h1 : M2 * (n + 1) + len2 < (M2 + 1) * (n + 1) := by
    rw [Nat.succ_mul]
    omega
  have h2 : (M2 + 1) * (n + 1) ≤ M0 * (n + 1) := Nat.mul_le_mul_right _ hM
  omega

theorem noneCount_le (st st' : SSt n nv)
    (h : ∀ x, (st'.live_in x).isNone = true → (st.live_in x).isNone = true) :
    noneCount st' ≤ noneCount st := by
  unfold noneCount
  apply Finset.card_le_card
  intro x hx
  rw [Finset.mem_filter] at hx ⊢
  exact ⟨Finset.mem_univ x, h x hx.2⟩

theorem noneCount_lt (st st' : SSt n nv) (b : Fin n)
    (h : ∀ x, (st'.live_in x).isNone = true → (st.live_in x).isNone = true)
    (hb : (st.live_in b).isNone = true) (hb' : ¬ (st'.live_in b).isNone = true) :
    noneCount st' < noneCount st := by
  unfold noneCount
  apply Finset.card_lt_card
  have hsub : Finset.univ.filter (fun x : Fin n => (st'.live_in x).isNone)
      ⊆ Finset.univ.filter (fun x : Fin n => (st.live_in x).isNone) := by
    intro x hx
    rw [Finset.mem_filter] at hx ⊢
    exact ⟨Finset.mem_univ x, h x hx.2⟩
  rw [Finset.ssubset_iff_of_subset hsub]
  exact ⟨b, Finset.mem_filter.mpr ⟨Finset.mem_univ b, hb⟩,
    fun hc => hb' (Finset.mem_filter.mp hc).2⟩

theorem outSlack_le (st st' : SSt n nv)
    (h : ∀ x, st.live_out x ⊆ st'.live_out x) : outSlack st' ≤ outSlack st := by
  unfold outSlack
  apply Finset.sum_le_sum
  intro x _
  have := Finset.card_le_card (h x)
  omega

theorem outSlack_lt (st st' : SSt n nv) (b : Fin n)
    (h : ∀ x, st.live_out x ⊆ st'.live_out x)
    (hb : st.live_out b ⊂ st'.live_out b) : outSlack st' < outSlack st := by
  unfold outSlack
  refine Finset.sum_lt_sum (fun x _ => by have := Finset.card_le_card (h x); omega)
    ⟨b, Finset.mem_univ b, ?_⟩
  have h1 := Finset.card_lt_card hb
  have h2 : (st'.live_out b).card ≤ nv := by
    simpa using Finset.card_le_card (Finset.subset_univ (st'.live_out b))
  omega

theorem pushBranch_spec (c : SCfg n nv)
    (hwf : ∀ p s : Fin n, s ∈ c.succ p → p ∈ c.pred s)
    (b : Fin n) (t : SSt n nv)
    (hW : WorklistInv t)
    (hStored : StoredInv c t)
    (hOut : OutUBInv c t)
    (hDone : ∀ x, x ≠ b → t.in_worklist x = false →
      ∀ s ∈ c.succ x, liveInF c t s ⊆ t.live_out x) :
    SolverInv c ((c.pred b).foldl pushPred
        (recomputeLiveIn c ((c.succ b).foldl (succStep c b) t) b)) ∧
    (∀ x, (((c.pred b).foldl pushPred
          (recomputeLiveIn c ((c.succ b).foldl (succStep c b) t) b)).live_in x).isNone
          = true →
        (t.live_in x).isNone = true) ∧
    (¬ (((c.pred b).foldl pushPred
          (recomputeLiveIn c ((c.succ b).foldl (succStep c b) t) b)).live_in b).isNone
          = true) ∧
    (∀ x, t.live_out x ⊆ ((c.pred b).foldl pushPred
        (recomputeLiveIn c ((c.succ b).foldl (succStep c b) t) b)).live_out x) ∧
    (t.live_out b ≠ ((c.succ b).foldl (succStep c b) t).live_out b →
      t.live_out b ⊂ ((c.pred b).foldl pushPred
        (recomputeLiveIn c ((c.succ b).foldl (succStep c b) t) b)).live_out b) ∧
    ((c.pred b).foldl pushPred
        (recomputeLiveIn c ((c.succ b).foldl (succStep c b) t) b)).worklist.length ≤ n := by
  have hUBt : ∀ x y, t.live_in x = some y → y ⊆ liveInOf c t x := by
    intro x y hxy
    rw [hStored x y hxy]
  have hUBF := succFold_storedUB c b (c.succ b) t hUBt
  have hWF : WorklistInv ((c.succ b).foldl (succStep c b) t) := by
    obtain ⟨hnd, hiff⟩ := hW
    constructor
    · rw [(succFold_wl c b (c.succ b) t).1]
      exact hnd
    · intro x
      rw [(succFold_wl c b (c.succ b) t).1, (succFold_wl c b (c.succ b) t).2]
      exact hiff x
  have hWR : WorklistInv (recomputeLiveIn c ((c.succ b).foldl (succStep c b) t) b) := by
    obtain ⟨hnd, hiff⟩ := hWF
    constructor
    · rw [(recompute_wl c _ b).1]
      exact hnd
    · intro x
      rw [(recompute_wl c _ b).1, (recompute_wl c _ b).2]
      exact hiff x
  have hWP : WorklistInv ((c.pred b).foldl pushPred
      (recomputeLiveIn c ((c.succ b).foldl (succStep c b) t) b)) :=
    pushPreds_winv c b (c.pred b) _ hWR
  have hStoredR : StoredInv c (recomputeLiveIn c ((c.succ b).foldl (succStep c b) t) b) := by
    intro x y hxy
    by_cases hxb : x = b
    · rw [hxb] at hxy ⊢
      rw [recompute_in_self] at hxy
      have hyv : y = liveInOf c ((c.succ b).foldl (succStep c b) t) b :=
        (Option.some.inj hxy).symm
      rw [hyv]
      unfold liveInOf
      rw [recompute_out]
    · rw [recompute_in_ne c _ b x hxb] at hxy
      have hy := succFold_stored_eq_ne c b (c.succ b) t x hxb
        (fun z hz => hStored x z hz) y hxy
      rw [hy]
      unfold liveInOf
      rw [recompute_out]
  have hStoredP : StoredInv c ((c.pred b).foldl pushPred
      (recomputeLiveIn c ((c.succ b).foldl (succStep c b) t) b)) := by
    intro x y hxy
    rw [(pushPreds_live c b (c.pred b) _).1] at hxy
    have hy := hStoredR x y hxy
    rw [hy]
    unfold liveInOf
    rw [(pushPreds_live c b (c.pred b) _).2]
  have hPliveInF : ∀ s, liveInF c ((c.pred b).foldl pushPred
      (recomputeLiveIn c ((c.succ b).foldl (succStep c b) t) b)) s
      = liveInF c (recomputeLiveIn c ((c.succ b).foldl (succStep c b) t) b) s :=
    fun s => liveInF_congr c _ _ (pushPreds_live c b (c.pred b) _).1
      (pushPreds_live c b (c.pred b) _).2 s
  have hMono : ∀ s, liveInF c t s ⊆
      liveInF c (recomputeLiveIn c ((c.succ b).foldl (succStep c b) t) b) s :=
    fun s => (succFold_liveInF_mono c b (c.succ b) t s).trans
      (recompute_liveInF_mono c _ b hUBF s)
  have hOutP : OutUBInv c ((c.pred b).foldl pushPred
      (recomputeLiveIn c ((c.succ b).foldl (succStep c b) t) b)) := by
    intro x v hv
    rw [(pushPreds_live c b (c.pred b) _).2, recompute_out] at hv
    by_cases hxb : x = b
    · rw [hxb] at hv ⊢
      rcases succFold_out_added c b (c.succ b) t v hv with h | ⟨o, ho, hmem⟩
      · obtain ⟨s, hs, hmem⟩ := hOut b v h
        exact ⟨s, hs, by rw [hPliveInF s]; exact hMono s hmem⟩
      · exact ⟨o, ho, by rw [hPliveInF o]; exact recompute_liveInF_mono c _ b hUBF o hmem⟩
    · rw [succFold_out_ne c b (c.succ b) t x hxb] at hv
      obtain ⟨s, hs, hmem⟩ := hOut x v hv
      exact ⟨s, hs, by rw [hPliveInF s]; exact hMono s hmem⟩
  have hDoneP : DoneInv c ((c.pred b).foldl pushPred
      (recomputeLiveIn c ((c.succ b).foldl (succStep c b) t) b)) := by
    intro x hx s hs
    have hxnotpred : x ∉ c.pred b := by
      intro hmem
      rw [pushPreds_flag_on (c.pred b) _ x hmem] at hx
      exact absurd hx (by simp)
    have hxflagt : t.in_worklist x = false := by
      have h1 := pushPreds_flag_false (c.pred b) _ x hx
      rw [(recompute_wl c _ b).2, (succFold_wl c b (c.succ b) t).2] at h1
      exact h1
    have hsneb : s ≠ b := by
      intro hsb
      rw [hsb] at hs
      exact hxnotpred (hwf x b hs)
    rw [hPliveInF s, recompute_liveInF_ne c _ b s hsneb]
    rw [(pushPreds_live c b (c.pred b) _).2, recompute_out]
    by_cases hxb : x = b
    · rw [hxb] at hs ⊢
      exact succFold_absorb c b (c.succ b) t s hs
    · rw [succFold_out_ne c b (c.succ b) t x hxb]
      rw [succFold_liveInF_ne c b (c.succ b) t s hsneb]
      exact hDone x hxb hxflagt s hs
  have hNone : ∀ x, (((c.pred b).foldl pushPred
      (recomputeLiveIn c ((c.succ b).foldl (succStep c b) t) b)).live_in x).isNone = true →
      (t.live_in x).isNone = true := by
    intro x hx
    rw [(pushPreds_live c b (c.pred b) _).1] at hx
    by_cases hxb : x = b
    · rw [hxb, recompute_in_self] at hx
      exact absurd hx (by simp)
    · rw [recompute_in_ne c _ b x hxb] at hx
      cases hv : t.live_in x with
      | some y =>
        rw [succFold_in_pres c b (c.succ b) t x (by rw [hv]; rfl), hv] at hx
        exact absurd hx (by simp)
      | none => rfl
  have hNoneB : ¬ (((c.pred b).foldl pushPred
      (recomputeLiveIn c ((c.succ b).foldl (succStep c b) t) b)).live_in b).isNone = true := by
    rw [(pushPreds_live c b (c.pred b) _).1, recompute_in_self]
    simp
  have hOutMono : ∀ x, t.live_out x ⊆ ((c.pred b).foldl pushPred
      (recomputeLiveIn c ((c.succ b).foldl (succStep c b) t) b)).live_out x := by
    intro x
    rw [(pushPreds_live c b (c.pred b) _).2, recompute_out]
    by_cases hxb : x = b
    · rw [hxb]
      exact succFold_out_mono c b (c.succ b) t b
    · rw [succFold_out_ne c b (c.succ b) t x hxb]
  have hOutStrict : t.live_out b ≠ ((c.succ b).foldl (succStep c b) t).live_out b →
      t.live_out b ⊂ ((c.pred b).foldl pushPred
        (recomputeLiveIn c ((c.succ b).foldl (succStep c b) t) b)).live_out b := by
    intro hne
    rw [(pushPreds_live c b (c.pred b) _).2, recompute_out]
    exact Finset.ssubset_iff_subset_ne.mpr ⟨succFold_out_mono c b (c.succ b) t b, hne⟩
  have hlen : ((c.pred b).foldl pushPred
      (recomputeLiveIn c ((c.succ b).foldl (succStep c b) t) b)).worklist.length ≤ n := by
    have h1 := hWP.1.length_le_card
    simpa using h1
  exact ⟨⟨hWP, hStoredP, hOutP, hDoneP⟩, hNone, hNoneB, hOutMono, hOutStrict, hlen⟩

theorem elseBranch_spec (c : SCfg n nv) (b : Fin n) (t : SSt n nv)
    (hW : WorklistInv t)
    (hStored : StoredInv c t)
    (hOut : OutUBInv c t)
    (hDone : ∀ x, x ≠ b → t.in_worklist x = false →
      ∀ s ∈ c.succ x, liveInF c t s ⊆ t.live_out x)
    (hsome : ¬ (t.live_in b).isNone = true)
    (houteq : t.live_out b = ((c.succ b).foldl (succStep c b) t).live_out b) :
    SolverInv c ((c.succ b).foldl (succStep c b) t) ∧
    (∀ x, (((c.succ b).foldl (succStep c b) t).live_in x).isNone = true →
      (t.live_in x).isNone = true) ∧
    (∀ x, ((c.succ b).foldl (succStep c b) t).live_out x = t.live_out x) := by
  have hbsome : (t.live_in b).isSome = true := by
    cases hv : t.live_in b with
    | none => rw [hv] at hsome; exact absurd rfl hsome
    | some y => rfl
  have houtall : ∀ x, ((c.succ b).foldl (succStep c b) t).live_out x = t.live_out x := by
    intro x
    by_cases hxb : x = b
    · rw [hxb, ← houteq]
    · exact succFold_out_ne c b (c.succ b) t x hxb
  have hFeq : ∀ s, liveInF c ((c.succ b).foldl (succStep c b) t) s = liveInF c t s := by
    intro s
    by_cases hsb : s = b
    · rw [hsb]
      exact succFold_liveInF_stored c b (c.succ b) t b hbsome
    · exact succFold_liveInF_ne c b (c.succ b) t s hsb
  have hWF : WorklistInv ((c.succ b).foldl (succStep c b) t) := by
    obtain ⟨hnd, hiff⟩ := hW
    constructor
    · rw [(succFold_wl c b (c.succ b) t).1]
      exact hnd
    · intro x
      rw [(succFold_wl c b (c.succ b) t).1, (succFold_wl c b (c.succ b) t).2]
      exact hiff x
  have hStoredF : StoredInv c ((c.succ b).foldl (succStep c b) t) := by
    intro x y hxy
    by_cases hxb : x = b
    · rw [hxb] at hxy ⊢
      rw [succFold_in_pres c b (c.succ b) t b hbsome] at hxy
      have hy := hStored b y hxy
      rw [hy]
      unfold liveInOf
      rw [houtall b]
    · exact succFold_stored_eq_ne c b (c.succ b) t x hxb (fun z hz => hStored x z hz) y hxy
  have hOutF : OutUBInv c ((c.succ b).foldl (succStep c b) t) := by
    intro x v hv
    rw [houtall x] at hv
    obtain ⟨s, hs, hmem⟩ := hOut x v hv
    exact ⟨s, hs, by rw [hFeq s]; exact hmem⟩
  have hDoneF : DoneInv c ((c.succ b).foldl (succStep c b) t) := by
    intro x hx s hs
    rw [hFeq s, houtall x]
    by_cases hxb : x = b
    · rw [hxb] at hs ⊢
      have h1 := succFold_absorb c b (c.succ b) t s hs
      rw [hFeq s, houtall b] at h1
      exact h1
    · rw [(succFold_wl c b (c.succ b) t).2] at hx
      exact hDone x hxb hx s hs
  have hNone : ∀ x, (((c.succ b).foldl (succStep c b) t).live_in x).isNone = true →
      (t.live_in x).isNone = true := by
    intro x hx
    cases hv : t.live_in x with
    | some y =>
      rw [succFold_in_pres c b (c.succ b) t x (by rw [hv]; rfl), hv] at hx
      exact absurd hx (by simp)
    | none => rfl
  exact ⟨⟨hWF, hStoredF, hOutF, hDoneF⟩, hNone, houtall⟩

theorem solveBody_spec (c : SCfg n nv)
    (hwf : ∀ p s : Fin n, s ∈ c.succ p → p ∈ c.pred s)
    (b : Fin n) (t : SSt n nv)
    (hW : WorklistInv t)
    (hStored : StoredInv c t)
    (hOut : OutUBInv c t)
    (hDone : ∀ x, x ≠ b → t.in_worklist x = false →
      ∀ s ∈ c.succ x, liveInF c t s ⊆ t.live_out x) :
    SolverInv c (solveBody c b t) ∧
      solverMeasure (solveBody c b t) <
        (noneCount t + outSlack t) * (n + 1) + t.worklist.length + 1 := by
  unfold solveBody succLoop pushPreds
  split
  · next hsucc =>
    constructor
    · refine ⟨hW, hStored, hOut, ?_⟩
      intro x hx s hs
      by_cases hxb : x = b
      · rw [hxb, hsucc] at hs
        exact absurd hs (List.not_mem_nil s)
      · exact hDone x hxb hx s hs
    · unfold solverMeasure
      omega
  · split
    · next hcond =>
      obtain ⟨hInv, hNone, hNoneB, hOutMono, hOutStrict, hlen⟩ :=
        pushBranch_spec c hwf b t hW hStored hOut hDone
      refine ⟨hInv, ?_⟩
      unfold solverMeasure
      have hM : noneCount ((c.pred b).foldl pushPred
            (recomputeLiveIn c ((c.succ b).foldl (succStep c b) t) b))
          + outSlack ((c.pred b).foldl pushPred
            (recomputeLiveIn c ((c.succ b).foldl (succStep c b) t) b))
          < noneCount t + outSlack t := by
        rcases hcond with hchg | hne
        · have h1 := noneCount_lt t _ b hNone hchg hNoneB
          have h2 := outSlack_le t _ hOutMono
          omega
        · have h1 := noneCount_le t _ hNone
          have h2 := outSlack_lt t _ b hOutMono (hOutStrict hne)
          omega
      have := measure_lt_helper
        (noneCount ((c.pred b).foldl pushPred
          (recomputeLiveIn c ((c.succ b).foldl (succStep c b) t) b))
          + outSlack ((c.pred b).foldl pushPred
            (recomputeLiveIn c ((c.succ b).foldl (succStep c b) t) b)))
        (noneCount t + outSlack t)
        ((c.pred b).foldl pushPred
          (recomputeLiveIn c ((c.succ b).foldl (succStep c b) t) b)).worklist.length
        (t.worklist.length + 1) n hM hlen
      omega
    · next hcond =>
      obtain ⟨hsome, houtne⟩ := not_or.mp hcond
      have houteq := not_not.mp houtne
      obtain ⟨hInv, hNone, houtall⟩ :=
        elseBranch_spec c b t hW hStored hOut hDone hsome houteq
      refine ⟨hInv, ?_⟩
      unfold solverMeasure
      have h1 := noneCount_le t _ hNone
      have h2 : outSlack ((c.succ b).foldl (succStep c b) t) = outSlack t := by
        unfold outSlack
        refine Finset.sum_congr rfl ?_
        intro x _
        rw [houtall x]
      have h3 : ((c.succ b).foldl (succStep c b) t).worklist.length
          = t.worklist.length := by
        rw [(succFold_wl c b (c.succ b) t).1]
      have h4 : (noneCount ((c.succ b).foldl (succStep c b) t)
            + outSlack ((c.succ b).foldl (succStep c b) t)) * (n + 1)
          ≤ (noneCount t + outSlack t) * (n + 1) :=
        Nat.mul_le_mul_right _ (by omega)
      omega

theorem solveStep_spec (c : SCfg n nv)
    (hwf : ∀ p s : Fin n, s ∈ c.succ p → p ∈ c.pred s)
    (st : SSt n nv) (hInv : SolverInv c st) (hne : st.worklist ≠ []) :
    SolverInv c (solveStep c st) ∧ solverMeasure (solveStep c st) < solverMeasure st := by
  obtain ⟨hW, hStored, hOut, hDone⟩ := hInv
  cases hpop : st.worklist with
  | nil => exact absurd hpop hne
  | cons b rest =>
    have hstep : solveStep c st = solveBody c b
        { st with worklist := rest, in_worklist := Function.update st.in_worklist b false } := by
      unfold solveStep
      rw [hpop]
    rw [hstep]
    have hnbrest : b ∉ rest := (List.nodup_cons.mp (hpop ▸ hW.1)).1
    have hW0 : WorklistInv ({ st with worklist := rest, in_worklist := Function.update st.in_worklist b false } : SSt n nv) := by
      constructor
      · exact (List.nodup_cons.mp (hpop ▸ hW.1)).2
      · intro x
        dsimp only
        by_cases hxb : x = b
        · rw [hxb, Function.update_same]
          constructor
          · intro hmem
            exact absurd hmem hnbrest
          · intro hc
            exact absurd hc (by simp)
        · rw [Function.update_noteq hxb]
          have h1 := hW.2 x
          rw [hpop, List.mem_cons] at h1
          constructor
          · intro hmem
            exact h1.mp (Or.inr hmem)
          · intro hflag
            rcases h1.mpr hflag with rfl | hmem
            · exact absurd rfl hxb
            · exact hmem
    have hDone0 : ∀ x, x ≠ b →
        ({ st with worklist := rest, in_worklist := Function.update st.in_worklist b false } : SSt n nv).in_worklist x = false →
        ∀ s ∈ c.succ x,
          liveInF c ({ st with worklist := rest, in_worklist := Function.update st.in_worklist b false } : SSt n nv) s
          ⊆ ({ st with worklist := rest, in_worklist := Function.update st.in_worklist b false } : SSt n nv).live_out x := by
      intro x hxb hx s hs
      have hx2 : st.in_worklist x = false := by
        rwa [show ({ st with worklist := rest, in_worklist := Function.update st.in_worklist b false } : SSt n nv).in_worklist = Function.update st.in_worklist b false from rfl, Function.update_noteq hxb] at hx
      exact hDone x hx2 s hs
    obtain ⟨hInvB, hmB⟩ := solveBody_spec c hwf b
      ({ st with worklist := rest, in_worklist := Function.update st.in_worklist b false } : SSt n nv)
      hW0 hStored hOut hDone0
    refine ⟨hInvB, ?_⟩
    have hnc : noneCount ({ st with worklist := rest, in_worklist := Function.update st.in_worklist b false } : SSt n nv) = noneCount st := rfl
    have hos : outSlack ({ st with worklist := rest, in_worklist := Function.update st.in_worklist b false } : SSt n nv) = outSlack st := rfl
    have hwl0 : ({ st with worklist := rest, in_worklist := Function.update st.in_worklist b false } : SSt n nv).worklist.length = rest.length := rfl
    rw [hnc, hos, hwl0] at hmB
    have hlen : st.worklist.length = rest.length + 1 := by
      rw [hpop]
      rfl
    unfold solverMeasure at hmB ⊢
    omega

theorem solveInit_inv (c : SCfg n nv) : SolverInv c (solveInit n nv) := by
  refine ⟨⟨?_, ?_⟩, ?_, ?_, ?_⟩
  · exact List.nodup_reverse.mpr (List.nodup_finRange n)
  · intro b
    constructor
    · intro _
      rfl
    · intro _
      exact List.mem_reverse.mpr (List.mem_finRange b)
  · intro b x h
    exact Option.noConfusion h
  · intro b v hv
    exact absurd hv (Finset.not_mem_empty v)
  · intro b hb
    rw [show (solveInit n nv).in_worklist b = true from rfl] at hb
    exact Bool.noConfusion hb

theorem solveLoop_reaches_empty (c : SCfg n nv)
    (hwf : ∀ p s : Fin n, s ∈ c.succ p → p ∈ c.pred s) :
    ∀ (N : Nat) (st : SSt n nv), SolverInv c st → solverMeasure st ≤ N →
      ∃ fuel, (solveLoop c fuel st).worklist = [] := by
  intro N
  induction N with
  | zero =>
    intro st hInv hm
    refine ⟨0, ?_⟩
    unfold solverMeasure at hm
    cases hwl : st.worklist with
    | nil =>
      unfold solveLoop
      exact hwl
    | cons b rest =>
      rw [hwl] at hm
      simp only [List.length_cons] at hm
      omega
  | succ N ih =>
    intro st hInv hm
    by_cases hempty : st.worklist = []
    · exact ⟨0, hempty⟩
    · obtain ⟨hInv2, hlt⟩ := solveStep_spec c hwf st hInv hempty
      obtain ⟨fuel, hf⟩ := ih (solveStep c st) hInv2 (by omega)
      refine ⟨fuel + 1, ?_⟩
      unfold solveLoop
      rw [if_neg hempty]
      exact hf

theorem solveLoop_inv (c : SCfg n nv)
    (hwf : ∀ p s : Fin n, s ∈ c.succ p → p ∈ c.pred s) :
    ∀ (fuel : Nat) (st : SSt n nv), SolverInv c st → SolverInv c (solveLoop c fuel st)
  | 0, _, h => h
  | fuel + 1, st, h => by
      unfold solveLoop
      split
      · exact h
      · next hne =>
        exact solveLoop_inv c hwf fuel _ (solveStep_spec c hwf st h hne).1

theorem mem_unionSucc (f : Fin n → Finset (Fin nv)) :
    ∀ (l : List (Fin n)) (v : Fin nv), (v ∈ unionSucc f l ↔ ∃ s ∈ l, v ∈ f s)
  | [], v => by
      constructor
      · intro h
        exact absurd h (Finset.not_mem_empty v)
      · rintro ⟨s, hs, -⟩
        exact absurd hs (List.not_mem_nil s)
  | s :: l, v => by
      show v ∈ f s ∪ unionSucc f l ↔ _
      rw [Finset.mem_union, mem_unionSucc f l v]
      constructor
      · rintro (h | ⟨t, ht, h⟩)
        · exact ⟨s, List.mem_cons_self s l, h⟩
        · exact ⟨t, List.mem_cons_of_mem s ht, h⟩
      · rintro ⟨t, ht, h⟩
        rcases List.mem_cons.mp ht with rfl | ht2
        · exact Or.inl h
        · exact Or.inr ⟨t, ht2, h⟩

/-- C8: the worklist loop of `mono_analyze_liveness` (liveness.c lines
487-562) terminates for every finite well-formed CFG (well-formed: every
successor edge has a matching predecessor edge): the `live_in` allocations
and `live_out` bits only ever move one way, so the number of re-pushes is
bounded and the loop exits with an empty worklist. -/
theorem worklist_loop_terminates (c : SCfg n nv)
    (hwf : ∀ p s : Fin n, s ∈ c.succ p → p ∈ c.pred s) :
    ∃ fuel, (solveLoop c fuel (solveInit n nv)).worklist = [] :=
  solveLoop_reaches_empty c hwf (solverMeasure (solveInit n nv)) (solveInit n nv)
    (solveInit_inv c) le_rfl

theorem worklist_loop_terminates_witness :
    (∀ p s : Fin 2, s ∈ exSCfg.succ p → p ∈ exSCfg.pred s) ∧
    ∃ fuel, (solveLoop exSCfg fuel (solveInit 2 1)).worklist = [] :=
  ⟨by decide, worklist_loop_terminates exSCfg (by decide)⟩

/-- C1: after `mono_analyze_liveness` returns on a CFG with at least one
tracked variable, every basic block satisfies both dataflow equations:
`live_in[B] = (live_out[B] \ kill[B]) ∪ gen[B]` - with `live_in` read as
the cleanup pass of lines 573-585 leaves it, filling a still-NULL
`live_in_set` with exactly that union - and
`live_out[B] = ∪ live_in[S]` over the successors `S` of `B`. -/
theorem fixpoint_equations (c : SCfg n nv) (_hnv : 0 < nv)
    (hwf : ∀ p s : Fin n, s ∈ c.succ p → p ∈ c.pred s)
    (fuel : Nat)
    (hdone : (solveLoop c fuel (solveInit n nv)).worklist = [])
    (b : Fin n) :
    cleanupLiveIn c (solveLoop c fuel (solveInit n nv)) b
      = ((solveLoop c fuel (solveInit n nv)).live_out b \ c.kill b) ∪ c.gen b ∧
    (solveLoop c fuel (solveInit n nv)).live_out b
      = unionSucc (cleanupLiveIn c (solveLoop c fuel (solveInit n nv))) (c.succ b) := by
  obtain ⟨hW, hStored, hOut, hDone⟩ :=
    solveLoop_inv c hwf fuel (solveInit n nv) (solveInit_inv c)
  have hflags : ∀ x : Fin n,
      (solveLoop c fuel (solveInit n nv)).in_worklist x = false := by
    intro x
    cases hv : (solveLoop c fuel (solveInit n nv)).in_worklist x with
    | false => rfl
    | true =>
      have hmem := (hW.2 x).mpr hv
      rw [hdone] at hmem
      exact absurd hmem (List.not_mem_nil x)
  constructor
  · show liveInF c (solveLoop c fuel (solveInit n nv)) b = _
    cases hv : (solveLoop c fuel (solveInit n nv)).live_in b with
    | some y =>
      rw [liveInF, hv, Option.getD_some]
      exact hStored b y hv
    | none =>
      rw [liveInF, hv, Option.getD_none]
      rfl
  · apply Finset.Subset.antisymm
    · intro v hv
      obtain ⟨s, hs, hmem⟩ := hOut b v hv
      rw [mem_unionSucc]
      exact ⟨s, hs, hmem⟩
    · intro v hv
      rw [mem_unionSucc] at hv
      obtain ⟨s, hs, hmem⟩ := hv
      exact hDone b (hflags b) s hs hmem

theorem fixpoint_equations_witness :
    (0 < 1 ∧ (∀ p s : Fin 2, s ∈ exSCfg.succ p → p ∈ exSCfg.pred s) ∧
      (solveLoop exSCfg 4 (solveInit 2 1)).worklist = []) ∧
    (cleanupLiveIn exSCfg (solveLoop exSCfg 4 (solveInit 2 1)) 0
      = ((solveLoop exSCfg 4 (solveInit 2 1)).live_out 0 \ exSCfg.kill 0) ∪ exSCfg.gen 0 ∧
    (solveLoop exSCfg 4 (solveInit 2 1)).live_out 0
      = unionSucc (cleanupLiveIn exSCfg (solveLoop exSCfg 4 (solveInit 2 1))) (exSCfg.succ 0)) :=
  ⟨⟨by decide, by decide, by decide⟩,
    fixpoint_equations exSCfg (by decide) (by decide) 4 (by decide) 0⟩

end Liveness
